import Mathlib

/-!
# Route trie of `gogo` (`trie.go`)

A shallow embedding of `trie.insert`, `trie.checkConflictWildcard` and `trie.match`.

* A Go `string` is modelled as the list of its runes (`Str`); the byte offsets that
  `for i, r := range s` yields and that `len` and slicing use are computed from the
  UTF-8 width of every rune (`encodeRune`, `bytes`, `len`).
* A Go `map` is an association list read with `mapGet` and written with `mapSet`.
* `*trie` is the inductive type `trie`; in-place mutation becomes state passing: `insert`
  returns the trie as the call leaves it together with the panic it raised, if any.
* `Handler` is declared elsewhere in the package and is a type parameter here.
-/

namespace Gogo

/-- Go `string` holding UTF-8 text, as the sequence of its runes. -/
abbrev Str := List Char

/-- UTF-8 encoding of one rune, as a list of byte values. -/
def encodeRune (c : Char) : List Nat :=
  let v := c.toNat
  if v < 0x80 then [v]
  else if v < 0x800 then [0xC0 + v / 0x40, 0x80 + v % 0x40]
  else if v < 0x10000 then [0xE0 + v / 0x1000, 0x80 + v / 0x40 % 0x40, 0x80 + v % 0x40]
  else [0xF0 + v / 0x40000, 0x80 + v / 0x1000 % 0x40, 0x80 + v / 0x40 % 0x40, 0x80 + v % 0x40]

/-- The bytes of a Go string. -/
def bytes : Str → List Nat
  | [] => []
  | c :: s => encodeRune c ++ bytes s

/-- Go `len(s)`: the number of bytes. -/
def len (s : Str) : Nat := (bytes s).length

/-- A string all of whose characters are encoded in one byte. -/
def SingleByte (s : Str) : Prop := ∀ c ∈ s, (encodeRune c).length = 1

def paramPrefix : Char := ':'
def slash : Char := '/'
def any : Char := '*'
def empty : Str := []

/-- Go map read `m[k]`; `none` stands for the absent key. -/
def mapGet {κ α : Type} [DecidableEq κ] : List (κ × α) → κ → Option α
  | [], _ => none
  | (k, v) :: m, x => if k = x then some v else mapGet m x

/-- Go map write `m[k] = v`. -/
def mapSet {κ α : Type} [DecidableEq κ] : List (κ × α) → κ → α → List (κ × α)
  | [], x, v => [(x, v)]
  | (k, w) :: m, x, v => if k = x then (k, v) :: m else (k, w) :: mapSet m x v

/-- Go `strings.Index(s, sub)` on runes; `none` stands for `-1`. An occurrence of
UTF-8 text inside UTF-8 text starts at a rune boundary, so the rune position found
here and the byte offset found by Go cut the string at the same place. -/
def strIndex : Str → Str → Option Nat
  | [], sub => if sub = [] then some 0 else none
  | c :: s, sub =>
    if sub.isPrefixOf (c :: s) then some 0 else (strIndex s sub).map (· + 1)

/-- Go `strings.Index` of a one-byte string inside a byte string. -/
def indexByte (b : Nat) : List Nat → Option Nat
  | [] => none
  | x :: xs => if x = b then some 0 else (indexByte b xs).map (· + 1)

/-- The `trie` struct of `trie.go`. -/
inductive trie (Handler : Type) where
  | mk (node : List (Char × trie Handler)) (params : List (Str × Str))
      (suffix : List Str) (handlers : List Handler) (isEnd : Bool)

namespace trie

variable {Handler : Type}

def node : trie Handler → List (Char × trie Handler)
  | mk n _ _ _ _ => n

def params : trie Handler → List (Str × Str)
  | mk _ p _ _ _ => p

def suffix : trie Handler → List Str
  | mk _ _ s _ _ => s

def handlers : trie Handler → List Handler
  | mk _ _ _ h _ => h

def isEnd : trie Handler → Bool
  | mk _ _ _ _ e => e

/-- Go `new(trie)` followed by `newTrie.node = make(map[string]*trie)`. -/
def newTrie : trie Handler := mk [] [] [] [] false

/-- Go `t.node[word]`; `none` stands for `nil`. -/
def child (t : trie Handler) (word : Char) : Option (trie Handler) := mapGet t.node word

/-- Go `t.node[word] = c`. -/
def setChild : trie Handler → Char → trie Handler → trie Handler
  | mk n p s h e, word, c => mk (mapSet n word c) p s h e

/-- Go `t.suffix = append(t.suffix, suffixKey)`. -/
def appendSuffix : trie Handler → Str → trie Handler
  | mk n p s h e, k => mk n p (s ++ [k]) h e

/-- Go `t.params[method] = name`. -/
def setParam : trie Handler → Str → Str → trie Handler
  | mk n p s h e, method, name => mk n (mapSet p method name) s h e

/-- Go `t.isEnd = true; t.handlers = handlers`. -/
def setEnd : trie Handler → List Handler → trie Handler
  | mk n p s _ _, hs => mk n p s hs true

/-- Go `t.params[method]`, the empty string for an absent key. -/
def paramName (t : trie Handler) (method : Str) : Str := (mapGet t.params method).getD empty

mutual
/-- Number of nodes on the longest branch of a trie. -/
def height : trie Handler → Nat
  | mk n _ _ _ _ => heightList n + 1
/-- Largest height among the children of a node. -/
def heightList : List (Char × trie Handler) → Nat
  | [] => 0
  | (_, t) :: r => max (height t) (heightList r)
end

end trie

/-- The ways a call of `insert` stops without returning. -/
inductive Panic where
  /-- The `panic("Insert need atleast a handler")` of `insert`. -/
  | missingHandlers
  /-- The `panic(err)` of `insert`, with the bytes of the message of `err`. -/
  | wildcardConflict (message : List Nat)
  /-- Go runtime error: index out of range. -/
  | indexOutOfRange
  /-- Go runtime error: slice bounds out of range. -/
  | sliceOutOfRange
  /-- Go runtime error: nil pointer dereference. -/
  | nilDereference
  deriving DecidableEq

/-- The message built by `fmt.Sprintf` in `checkConflictWildcard`. -/
def conflictMessage (conflictWord method pattern : List Nat) : List Nat :=
  bytes "wildcard '".toList ++ conflictWord ++ bytes "' in route ".toList ++ method ++
    bytes "('".toList ++ pattern ++ bytes "') conflicts with existing prefix in trie".toList

namespace trie

variable {Handler : Type}

/-- Go `(t *trie) checkConflictWildcard(route, currentIndex)`. The result is the
returned `error` (`none` for `nil`, otherwise the bytes of its message), or the runtime
panic raised on the way. Slicing is done on the bytes of `route`, as in Go. -/
def checkConflictWildcard (t : trie Handler) (route : Str) (currentIndex : Nat) :
    Except Panic (Option (List Nat)) :=
  let nextIndex := currentIndex + 1
  if len route < nextIndex then .error .sliceOutOfRange else
  let remainRoute := (bytes route).drop nextIndex
  match remainRoute with
  | [] => .error .indexOutOfRange
  | afterSlashWord :: _ =>
    let isInsertAbsolutePathFirst : Bool := afterSlashWord = 0x3A || afterSlashWord = 0x2A
    match t.child slash with
    | none => .error .nilDereference
    | some s =>
      let isInsertParamOrAnyFirst : Bool := (s.child paramPrefix).isSome || (s.child any).isSome
      if isInsertAbsolutePathFirst || isInsertParamOrAnyFirst then
        let conflictWord :=
          match indexByte 0x2F remainRoute with
          | some remainRouteSlashIndex => remainRoute.take remainRouteSlashIndex
          | none => remainRoute
        match indexByte 0x2F (bytes route) with
        | none => .error .sliceOutOfRange
        | some routeSlashIndex =>
          let method := (bytes route).take routeSlashIndex
          let pattern := (bytes route).drop routeSlashIndex
          .ok (some (conflictMessage conflictWord method pattern))
      else .ok none

/-- Lines 79-88 of `insert`: the child for `word`, created when absent, otherwise
looked up after the conflict check. -/
def insertChild (t : trie Handler) (route : Str) (currentIndex : Nat) (word : Char) :
    Except Panic (trie Handler) :=
  match t.child word with
  | none => .ok newTrie
  | some c =>
    match t.child slash with
    | none => .ok c
    | some s =>
      if !s.isEnd then
        match t.checkConflictWildcard route currentIndex with
        | .error p => .error p
        | .ok (some message) => .error (.wildcardConflict message)
        | .ok none => .ok c
      else .ok c

/-- Lines 92-107 of `insert`: the text from `*` to the next `/` is recorded as a suffix. -/
def recordSuffix (t : trie Handler) (word : Char) (remainRoute : Str) : trie Handler :=
  if word = any then
    let suffixKey :=
      match strIndex remainRoute [slash] with
      | some slashIndex => remainRoute.take slashIndex
      | none => remainRoute
    if suffixKey ≠ empty then t.appendSuffix suffixKey else t
  else t

/-- Lines 111-127 of `insert`: the text from `:` to the next `/` is recorded as the
parameter name of `method`. -/
def recordParam (t : trie Handler) (word : Char) (method remainRoute : Str) : trie Handler :=
  if word = paramPrefix then
    match strIndex remainRoute [slash] with
    | some slashIndex => t.setParam method (remainRoute.take slashIndex)
    | none => t.setParam method remainRoute
  else t

/-- The `for currentIndex, runeStr := range route` loop of `insert`, from the rune at
byte offset `currentIndex` on; `rest` is `route[currentIndex:]`. The result is the node
`t` as the loop leaves it and the panic that stopped the loop, if any. -/
def insertLoop (route method : Str) (handlers : List Handler) :
    Str → Nat → trie Handler → trie Handler × Option Panic
  | [], _, t => (t, none)
  | word :: rest, currentIndex, t =>
    let lastIndex : Int := (len route : Int) - 1
    match t.insertChild route currentIndex word with
    | .error p => (t, some p)
    | .ok c =>
      let t1 := recordSuffix (t.setChild word c) word rest
      let t2 := recordParam t1 word method rest
      let c1 := if (currentIndex : Int) = lastIndex then c.setEnd handlers else c
      let r := insertLoop route method handlers rest (currentIndex + (encodeRune word).length) c1
      (t2.setChild word r.1, r.2)

/-- Go `(t *trie) insert(route, method, handlers...)`: the trie after the call and the
panic raised by it (`none` when the call returns). -/
def insert (t : trie Handler) (route method : Str) (handlers : List Handler) :
    trie Handler × Option Panic :=
  if handlers.length ≤ 0 then (t, some .missingHandlers)
  else insertLoop route method handlers route 0 t

/-- The `for currentIndex, runeStr := range path` loop of `match`, from the rune at byte
offset `currentIndex` on. The result is `(t, remainPath, matched, handlers)`. -/
def matchLoop (lastIndex : Int) :
    Str → Nat → trie Handler → Bool → List Handler → trie Handler × Str × Bool × List Handler
  | [], _, t, matched, handlers => (t, empty, matched, handlers)
  | word :: rest, currentIndex, t, matched, handlers =>
    match t.child word with
    | some c =>
      if (currentIndex : Int) = lastIndex && c.isEnd then
        matchLoop lastIndex rest (currentIndex + (encodeRune word).length) c true c.handlers
      else
        matchLoop lastIndex rest (currentIndex + (encodeRune word).length) c matched handlers
    | none => (t, word :: rest, matched, handlers)

/-- The `for _, suffix := range t.suffix` loop of `match`: the index of the first
recorded suffix that occurs in `tempPath`. -/
def suffixLoop (tempPath : Str) : List Str → Option Nat
  | [] => none
  | suffix :: more =>
    match strIndex tempPath suffix with
    | some suffixIndex => some suffixIndex
    | none => suffixLoop tempPath more

/-- Lines 172-192 of `match`: the parameter value and the rewritten remaining path. -/
def paramRewrite (name remainPath : Str) : Str × Str :=
  match strIndex remainPath [slash] with
  | some slashIndex => (remainPath.take slashIndex, paramPrefix :: name ++ remainPath.drop slashIndex)
  | none => (remainPath, paramPrefix :: name)

/-- Lines 201-238 of `match`: the remaining path rewritten for the `*` branch. -/
def anyRewrite (t : trie Handler) (remainPath : Str) : Str :=
  let suffixIndex : Option Nat :=
    if t.suffix.length > 0 then
      let tempPath :=
        match strIndex remainPath [slash] with
        | some slashIndex => remainPath.take slashIndex
        | none => remainPath
      suffixLoop tempPath t.suffix
    else none
  match suffixIndex with
  | some i => any :: remainPath.drop i
  | none =>
    match strIndex remainPath [slash] with
    | some slashIndex => any :: remainPath.drop slashIndex
    | none => [any]

/-- Go `(t *trie) match(path, method, params)` with a bound on the nesting of the
recursive calls; `none` when the bound is used up. The result is
`(matched, handlers, *params)`. -/
def matchFuel : Nat → trie Handler → Str → Str → List (Str × Str) →
    Option (Bool × List Handler × List (Str × Str))
  | 0, _, _, _, _ => none
  | fuel + 1, t0, path, method, params =>
    let lastIndex : Int := (len path : Int) - 1
    match matchLoop lastIndex path 0 t0 false [] with
    | (t, remainPath, matched, handlers) =>
      if !matched && (t.child paramPrefix).isSome && t.paramName method ≠ empty then
        let r := paramRewrite (t.paramName method) remainPath
        matchFuel fuel t r.2 method (mapSet params (t.paramName method) r.1)
      else if !matched && (t.child any).isSome then
        matchFuel fuel t (anyRewrite t remainPath) method params
      else some (matched, handlers, params)

end trie

/-- Go `(t *trie) match(path, method, params)`. Every recursive call starts at a node
that has the first character of its path as a child, so the calls nest no deeper than
the trie is high; `none` would say that this bound was used up. The result is
`(matched, handlers, *params)`. -/
def trie.match {Handler : Type} (t : trie Handler) (path method : Str)
    (params : List (Str × Str)) : Option (Bool × List Handler × List (Str × Str)) :=
  trie.matchFuel t.height t path method params

/-- One call `insert(route, method, handlers...)`. -/
structure Registration (Handler : Type) where
  route : Str
  method : Str
  handlers : List Handler

/-- A sequence of `insert` calls that all return; `none` as soon as one of them panics. -/
def insertAll {Handler : Type} : trie Handler → List (Registration Handler) → Option (trie Handler)
  | t, [] => some t
  | t, r :: rs =>
    match t.insert r.route r.method r.handlers with
    | (t1, none) => insertAll t1 rs
    | (_, some _) => none

/-- The node reached from `t` along the edges spelled by `path`. -/
def walk {Handler : Type} : trie Handler → Str → Option (trie Handler)
  | t, [] => some t
  | t, c :: path =>
    match t.child c with
    | some n => walk n path
    | none => none

/-- The handlers of the last registration of `route` in a list of registrations. -/
def lastHandlers {Handler : Type} (route : Str) : List (Registration Handler) → Option (List Handler)
  | [] => none
  | r :: rs =>
    match lastHandlers route rs with
    | some h => some h
    | none => if r.route = route then some r.handlers else none

/-- Whether the last character of a string is encoded in one byte, which is when the
loops of `insert` and `match` reach `currentIndex == lastIndex`. -/
def endsSingle : Str → Bool
  | [] => false
  | [c] => decide ((encodeRune c).length = 1)
  | _ :: c :: s => endsSingle (c :: s)

/-- The handlers bound at the node reached along `path`, when that node is terminal. -/
def endAt {Handler : Type} (t : trie Handler) (path : Str) : Option (List Handler) :=
  match walk t path with
  | some n => if n.isEnd then some n.handlers else none
  | none => none

/-- A node with a `:` or `*` child next to a child under another key. -/
def Ambiguous {Handler : Type} (n : trie Handler) : Prop :=
  ∃ c d : Char, c ≠ d ∧ (c = paramPrefix ∨ c = any) ∧ (n.child c).isSome ∧ (n.child d).isSome

/-- No node that is reached through a `/` edge and is not terminal is ambiguous. -/
def SlashInv {Handler : Type} (t : trie Handler) : Prop :=
  ∀ q n, walk t (q ++ [slash]) = some n → n.isEnd = false → ¬ Ambiguous n

/-- A sequence of `insert` calls, each one made on the trie as the call before left it,
whether that call returned or panicked. -/
def insertEach {Handler : Type} : trie Handler → List (Registration Handler) → trie Handler
  | t, [] => t
  | t, r :: rs => insertEach (t.insert r.route r.method r.handlers).1 rs

/-- Every node is terminal exactly when its handler list is not empty. -/
def EndInv {Handler : Type} (t : trie Handler) : Prop :=
  ∀ q n, walk t q = some n → (n.isEnd = true ↔ n.handlers ≠ [])

/-- The bytes up to the first `/`, or all of them when there is none. -/
def segmentBytes (bs : List Nat) : List Nat :=
  match indexByte 0x2F bs with
  | some i => bs.take i
  | none => bs

/-! ## Elementary facts -/

section Basics

variable {Handler : Type}

theorem insert_of_ne_nil (t : trie Handler) (route method : Str) (handlers : List Handler)
    (h : handlers ≠ []) :
    trie.insert t route method handlers = trie.insertLoop route method handlers route 0 t := by
  cases handlers with
  | nil => exact absurd rfl h
  | cons a l => simp [trie.insert]

theorem mapGet_mapSet {κ α : Type} [DecidableEq κ] (m : List (κ × α)) (k x : κ) (v : α) :
    mapGet (mapSet m k v) x = if k = x then some v else mapGet m x := by
  induction m with
  | nil => simp [mapSet, mapGet]
  | cons e m ih =>
    obtain ⟨k1, w⟩ := e
    by_cases h1 : k1 = k
    · subst h1
      by_cases h2 : k1 = x <;> simp [mapSet, mapGet, h2]
    · by_cases h2 : k1 = x
      · subst h2
        have h3 : ¬ k = k1 := fun h => h1 h.symm
        simp [mapSet, mapGet, h1, h3]
      · simp [mapSet, mapGet, h1, h2, ih]

theorem encodeRune_length_pos (c : Char) : 0 < (encodeRune c).length := by
  unfold encodeRune
  simp only []
  split_ifs <;> simp

theorem len_nil : len [] = 0 := rfl

theorem len_cons (c : Char) (s : Str) : len (c :: s) = (encodeRune c).length + len s := by
  simp [len, bytes]

theorem bytes_append (a b : Str) : bytes (a ++ b) = bytes a ++ bytes b := by
  induction a with
  | nil => rfl
  | cons c a ih => simp [bytes, ih]

theorem len_append (a b : Str) : len (a ++ b) = len a + len b := by
  simp [len, bytes_append]

theorem len_pos_of_ne_nil (s : Str) (h : s ≠ []) : 0 < len s := by
  cases s with
  | nil => exact absurd rfl h
  | cons c s =>
    have := encodeRune_length_pos c
    rw [len_cons]; omega

/-- The loops reach `currentIndex == lastIndex` exactly at a last character of one byte. -/
theorem index_eq_last (route : Str) (i : Nat) (w : Char) (r : Str)
    (h : i + len (w :: r) = len route) :
    ((i : Int) = (len route : Int) - 1) ↔ (r = [] ∧ (encodeRune w).length = 1) := by
  rw [len_cons] at h
  have hw := encodeRune_length_pos w
  constructor
  · intro e
    have h1 : len r = 0 := by omega
    have h2 : (encodeRune w).length = 1 := by omega
    refine ⟨?_, h2⟩
    by_contra hr
    have := len_pos_of_ne_nil r hr
    omega
  · rintro ⟨rfl, h2⟩
    rw [len_nil] at h
    omega

theorem endsSingle_cons_cons (w c : Char) (s : Str) :
    endsSingle (w :: c :: s) = endsSingle (c :: s) := rfl

theorem endsSingle_cons_of_ne_nil (w : Char) (r : Str) (h : r ≠ []) :
    endsSingle (w :: r) = endsSingle r := by
  cases r with
  | nil => exact absurd rfl h
  | cons c s => rfl

theorem endsSingle_singleton (w : Char) :
    endsSingle [w] = decide ((encodeRune w).length = 1) := rfl

theorem endsSingle_of_singleByte (s : Str) (h : SingleByte s) (hne : s ≠ []) :
    endsSingle s = true := by
  induction s with
  | nil => exact absurd rfl hne
  | cons w r ih =>
    cases r with
    | nil => simp [endsSingle, h w (List.mem_singleton.mpr rfl)]
    | cons c s =>
      rw [endsSingle_cons_cons]
      exact ih (fun x hx => h x (List.mem_cons_of_mem _ hx)) (by simp)

/-! ### Projections of the node updates -/

@[simp] theorem node_setChild (t : trie Handler) (w : Char) (c : trie Handler) :
    (t.setChild w c).node = mapSet t.node w c := by cases t; rfl
@[simp] theorem params_setChild (t : trie Handler) (w : Char) (c : trie Handler) :
    (t.setChild w c).params = t.params := by cases t; rfl
@[simp] theorem suffix_setChild (t : trie Handler) (w : Char) (c : trie Handler) :
    (t.setChild w c).suffix = t.suffix := by cases t; rfl
@[simp] theorem handlers_setChild (t : trie Handler) (w : Char) (c : trie Handler) :
    (t.setChild w c).handlers = t.handlers := by cases t; rfl
@[simp] theorem isEnd_setChild (t : trie Handler) (w : Char) (c : trie Handler) :
    (t.setChild w c).isEnd = t.isEnd := by cases t; rfl
@[simp] theorem child_setChild (t : trie Handler) (w x : Char) (c : trie Handler) :
    (t.setChild w c).child x = if w = x then some c else t.child x := by
  simp [trie.child, mapGet_mapSet]
@[simp] theorem paramName_setChild (t : trie Handler) (w : Char) (c : trie Handler) (m : Str) :
    (t.setChild w c).paramName m = t.paramName m := by simp [trie.paramName]

@[simp] theorem node_appendSuffix (t : trie Handler) (k : Str) :
    (t.appendSuffix k).node = t.node := by cases t; rfl
@[simp] theorem params_appendSuffix (t : trie Handler) (k : Str) :
    (t.appendSuffix k).params = t.params := by cases t; rfl
@[simp] theorem suffix_appendSuffix (t : trie Handler) (k : Str) :
    (t.appendSuffix k).suffix = t.suffix ++ [k] := by cases t; rfl
@[simp] theorem handlers_appendSuffix (t : trie Handler) (k : Str) :
    (t.appendSuffix k).handlers = t.handlers := by cases t; rfl
@[simp] theorem isEnd_appendSuffix (t : trie Handler) (k : Str) :
    (t.appendSuffix k).isEnd = t.isEnd := by cases t; rfl
@[simp] theorem child_appendSuffix (t : trie Handler) (k : Str) (x : Char) :
    (t.appendSuffix k).child x = t.child x := by simp [trie.child]

@[simp] theorem node_setParam (t : trie Handler) (m k : Str) :
    (t.setParam m k).node = t.node := by cases t; rfl
@[simp] theorem params_setParam (t : trie Handler) (m k : Str) :
    (t.setParam m k).params = mapSet t.params m k := by cases t; rfl
@[simp] theorem suffix_setParam (t : trie Handler) (m k : Str) :
    (t.setParam m k).suffix = t.suffix := by cases t; rfl
@[simp] theorem handlers_setParam (t : trie Handler) (m k : Str) :
    (t.setParam m k).handlers = t.handlers := by cases t; rfl
@[simp] theorem isEnd_setParam (t : trie Handler) (m k : Str) :
    (t.setParam m k).isEnd = t.isEnd := by cases t; rfl
@[simp] theorem child_setParam (t : trie Handler) (m k : Str) (x : Char) :
    (t.setParam m k).child x = t.child x := by simp [trie.child]

@[simp] theorem node_setEnd (t : trie Handler) (hs : List Handler) :
    (t.setEnd hs).node = t.node := by cases t; rfl
@[simp] theorem params_setEnd (t : trie Handler) (hs : List Handler) :
    (t.setEnd hs).params = t.params := by cases t; rfl
@[simp] theorem suffix_setEnd (t : trie Handler) (hs : List Handler) :
    (t.setEnd hs).suffix = t.suffix := by cases t; rfl
@[simp] theorem handlers_setEnd (t : trie Handler) (hs : List Handler) :
    (t.setEnd hs).handlers = hs := by cases t; rfl
@[simp] theorem isEnd_setEnd (t : trie Handler) (hs : List Handler) :
    (t.setEnd hs).isEnd = true := by cases t; rfl
@[simp] theorem child_setEnd (t : trie Handler) (hs : List Handler) (x : Char) :
    (t.setEnd hs).child x = t.child x := by simp [trie.child]

@[simp] theorem node_newTrie : (trie.newTrie : trie Handler).node = [] := rfl
@[simp] theorem params_newTrie : (trie.newTrie : trie Handler).params = [] := rfl
@[simp] theorem suffix_newTrie : (trie.newTrie : trie Handler).suffix = [] := rfl
@[simp] theorem handlers_newTrie : (trie.newTrie : trie Handler).handlers = [] := rfl
@[simp] theorem isEnd_newTrie : (trie.newTrie : trie Handler).isEnd = false := rfl
@[simp] theorem child_newTrie (x : Char) : (trie.newTrie : trie Handler).child x = none := rfl

@[simp] theorem node_recordSuffix (t : trie Handler) (w : Char) (r : Str) :
    (trie.recordSuffix t w r).node = t.node := by
  unfold trie.recordSuffix; dsimp only; split_ifs <;> simp
@[simp] theorem params_recordSuffix (t : trie Handler) (w : Char) (r : Str) :
    (trie.recordSuffix t w r).params = t.params := by
  unfold trie.recordSuffix; dsimp only; split_ifs <;> simp
@[simp] theorem handlers_recordSuffix (t : trie Handler) (w : Char) (r : Str) :
    (trie.recordSuffix t w r).handlers = t.handlers := by
  unfold trie.recordSuffix; dsimp only; split_ifs <;> simp
@[simp] theorem isEnd_recordSuffix (t : trie Handler) (w : Char) (r : Str) :
    (trie.recordSuffix t w r).isEnd = t.isEnd := by
  unfold trie.recordSuffix; dsimp only; split_ifs <;> simp
@[simp] theorem child_recordSuffix (t : trie Handler) (w : Char) (r : Str) (x : Char) :
    (trie.recordSuffix t w r).child x = t.child x := by simp [trie.child]

@[simp] theorem node_recordParam (t : trie Handler) (w : Char) (m r : Str) :
    (trie.recordParam t w m r).node = t.node := by
  unfold trie.recordParam; split_ifs <;> [split <;> simp; rfl]
@[simp] theorem suffix_recordParam (t : trie Handler) (w : Char) (m r : Str) :
    (trie.recordParam t w m r).suffix = t.suffix := by
  unfold trie.recordParam; split_ifs <;> [split <;> simp; rfl]
@[simp] theorem handlers_recordParam (t : trie Handler) (w : Char) (m r : Str) :
    (trie.recordParam t w m r).handlers = t.handlers := by
  unfold trie.recordParam; split_ifs <;> [split <;> simp; rfl]
@[simp] theorem isEnd_recordParam (t : trie Handler) (w : Char) (m r : Str) :
    (trie.recordParam t w m r).isEnd = t.isEnd := by
  unfold trie.recordParam; split_ifs <;> [split <;> simp; rfl]
@[simp] theorem child_recordParam (t : trie Handler) (w : Char) (m r : Str) (x : Char) :
    (trie.recordParam t w m r).child x = t.child x := by simp [trie.child]

end Basics

section Insert

variable {Handler : Type}

/-! ### Walking a trie -/

theorem walk_nil (t : trie Handler) : walk t [] = some t := rfl

theorem walk_cons (t : trie Handler) (x : Char) (q : Str) :
    walk t (x :: q) = (t.child x).bind (fun n => walk n q) := by
  simp only [walk]
  cases t.child x <;> rfl

theorem walk_append (t : trie Handler) (a b : Str) :
    walk t (a ++ b) = (walk t a).bind (fun n => walk n b) := by
  induction a generalizing t with
  | nil => simp [walk_nil]
  | cons x a ih =>
    simp only [List.cons_append, walk_cons]
    cases t.child x with
    | none => rfl
    | some n => simpa using ih n

theorem walk_newTrie (q : Str) (n : trie Handler) (h : walk (trie.newTrie : trie Handler) q = some n) :
    q = [] := by
  cases q with
  | nil => rfl
  | cons x q => simp [walk_cons] at h

theorem endAt_nil (t : trie Handler) :
    endAt t [] = if t.isEnd then some t.handlers else none := rfl

theorem endAt_cons (t : trie Handler) (x : Char) (q : Str) :
    endAt t (x :: q) = (t.child x).bind (fun n => endAt n q) := by
  simp only [endAt, walk_cons]
  cases t.child x <;> rfl

theorem endAt_newTrie (q : Str) : endAt (trie.newTrie : trie Handler) q = none := by
  cases q with
  | nil => rfl
  | cons x q => simp [endAt_cons]

theorem endAt_setEnd (t : trie Handler) (hs : List Handler) (q : Str) :
    endAt (t.setEnd hs) q = if q = [] then some hs else endAt t q := by
  cases q with
  | nil => simp [endAt_nil]
  | cons x q => simp [endAt_cons]

/-! ### One turn of the loop of `insert` -/

theorem insertLoop_nil (route method : Str) (hs : List Handler) (i : Nat) (t : trie Handler) :
    trie.insertLoop route method hs [] i t = (t, none) := rfl

theorem insertLoop_cons_error (route method : Str) (hs : List Handler) (w : Char) (r : Str)
    (i : Nat) (t : trie Handler) (p : Panic) (h : t.insertChild route i w = .error p) :
    trie.insertLoop route method hs (w :: r) i t = (t, some p) := by
  simp [trie.insertLoop, h]

theorem insertLoop_cons_ok (route method : Str) (hs : List Handler) (w : Char) (r : Str)
    (i : Nat) (t c : trie Handler) (h : t.insertChild route i w = .ok c) :
    trie.insertLoop route method hs (w :: r) i t =
      ((trie.recordParam (trie.recordSuffix (t.setChild w c) w r) w method r).setChild w
          (trie.insertLoop route method hs r (i + (encodeRune w).length)
            (if (i : Int) = (len route : Int) - 1 then c.setEnd hs else c)).1,
        (trie.insertLoop route method hs r (i + (encodeRune w).length)
            (if (i : Int) = (len route : Int) - 1 then c.setEnd hs else c)).2) := by
  simp [trie.insertLoop, h]

/-- The child handed on by lines 79-88 is the existing child, or a new node when there
is none. -/
theorem insertChild_ok (t c : trie Handler) (route : Str) (i : Nat) (w : Char)
    (h : t.insertChild route i w = .ok c) :
    (t.child w = none ∧ c = trie.newTrie) ∨ t.child w = some c := by
  unfold trie.insertChild at h
  split at h
  · left
    refine ⟨by assumption, ?_⟩
    cases h; rfl
  · right
    split at h
    · cases h; assumption
    · split at h
      · split at h
        · cases h
        · cases h
        · cases h; assumption
      · cases h; assumption

theorem endAt_of_insertChild (t c : trie Handler) (route : Str) (i : Nat) (w : Char)
    (h : t.insertChild route i w = .ok c) (q : Str) :
    endAt t (w :: q) = endAt c q := by
  rcases insertChild_ok t c route i w h with ⟨h1, rfl⟩ | h1
  · simp [endAt_cons, h1, endAt_newTrie]
  · simp [endAt_cons, h1]

/-- Terminal nodes after one returning run of the loop of `insert`: the node at the end
of the route becomes terminal with the new handlers when the last character of the route
is one byte long, and nothing else changes. -/
theorem endAt_insertLoop (route method : Str) (hs : List Handler) :
    ∀ (rest : Str) (i : Nat) (t T : trie Handler), i + len rest = len route →
      trie.insertLoop route method hs rest i t = (T, none) →
      ∀ q, endAt T q = if q = rest ∧ endsSingle rest = true then some hs else endAt t q := by
  intro rest
  induction rest with
  | nil =>
    intro i t T _ h q
    rw [insertLoop_nil] at h
    cases h
    simp [endsSingle]
  | cons w r ih =>
    intro i t T hi h q
    cases hc : t.insertChild route i w with
    | error p =>
      rw [insertLoop_cons_error _ _ _ _ _ _ _ _ hc] at h
      cases h
    | ok c =>
      rw [insertLoop_cons_ok _ _ _ _ _ _ _ _ hc] at h
      obtain ⟨hT, hR⟩ := Prod.mk.inj h
      have hi2 : (i + (encodeRune w).length) + len r = len route := by
        rw [len_cons] at hi; omega
      have ihR := ih _ _ _ hi2 (Prod.ext rfl hR)
      have hlast := index_eq_last route i w r hi
      subst hT
      cases q with
      | nil =>
        simp [endAt_nil]
      | cons x q =>
        by_cases hx : w = x
        · subst hx
          rw [endAt_cons]
          simp only [child_setChild, if_true, Option.some_bind]
          rw [ihR, endAt_of_insertChild t c route i w hc q]
          by_cases hl : (i : Int) = (len route : Int) - 1
          · obtain ⟨hr, hw⟩ := hlast.mp hl
            subst hr
            simp [hl, endAt_setEnd, endsSingle, hw]
          · have hnl : ¬ (r = [] ∧ (encodeRune w).length = 1) := fun h => hl (hlast.mpr h)
            simp only [hl, if_false]
            cases r with
            | nil =>
              have hw : ¬ (encodeRune w).length = 1 := fun h => hnl ⟨rfl, h⟩
              simp [endsSingle, hw]
            | cons c2 r2 =>
              simp [endsSingle_cons_cons]
        · have hx2 : ¬ x = w := fun h => hx h.symm
          rw [endAt_cons, endAt_cons]
          simp [hx, hx2]

theorem endAt_insert (t T : trie Handler) (route method : Str) (hs : List Handler)
    (h : trie.insert t route method hs = (T, none)) (q : Str) :
    endAt T q = if q = route ∧ endsSingle route = true then some hs else endAt t q := by
  unfold trie.insert at h
  split_ifs at h with h0
  · cases h
  · exact endAt_insertLoop route method hs route 0 t T (by simp) h q

/-- Terminal nodes after a sequence of registrations that all return. -/
theorem endAt_insertAll (regs : List (Registration Handler)) :
    ∀ (t T : trie Handler), insertAll t regs = some T →
      ∀ q, endAt T q =
        if endsSingle q = true then (lastHandlers q regs).orElse (fun _ => endAt t q)
        else endAt t q := by
  induction regs with
  | nil =>
    intro t T h q
    simp only [insertAll] at h
    cases h
    simp [lastHandlers]
  | cons r rs ih =>
    intro t T h q
    simp only [insertAll] at h
    cases hr : trie.insert t r.route r.method r.handlers with
    | mk t1 p =>
      rw [hr] at h
      cases p with
      | some p => simp at h
      | none =>
        simp only at h
        rw [ih t1 T h q, endAt_insert t t1 _ _ _ hr q]
        by_cases hq : endsSingle q = true
        · simp only [hq, if_true, lastHandlers]
          cases hl : lastHandlers q rs with
          | some x => simp
          | none =>
            by_cases he : r.route = q
            · subst he; simp [hq]
            · have he2 : ¬ q = r.route := fun h => he h.symm
              simp [he, he2]
        · have hq2 : ¬ (q = r.route ∧ endsSingle r.route = true) := by
            rintro ⟨rfl, h2⟩; exact hq h2
          simp [hq, hq2]

end Insert

section Match

variable {Handler : Type}

/-! ### The scan of `match` -/

theorem matchLoop_nil (L : Int) (i : Nat) (t : trie Handler) (m : Bool) (h : List Handler) :
    trie.matchLoop L [] i t m h = (t, [], m, h) := rfl

theorem matchLoop_cons_none (L : Int) (w : Char) (r : Str) (i : Nat) (t : trie Handler)
    (m : Bool) (h : List Handler) (hc : t.child w = none) :
    trie.matchLoop L (w :: r) i t m h = (t, w :: r, m, h) := by
  simp [trie.matchLoop, hc]

theorem matchLoop_cons_some (L : Int) (w : Char) (r : Str) (i : Nat) (t c : trie Handler)
    (m : Bool) (h : List Handler) (hc : t.child w = some c) :
    trie.matchLoop L (w :: r) i t m h =
      if (i : Int) = L ∧ c.isEnd = true then
        trie.matchLoop L r (i + (encodeRune w).length) c true c.handlers
      else trie.matchLoop L r (i + (encodeRune w).length) c m h := by
  simp [trie.matchLoop, hc]

/-- The scan along a path that is in the trie as a whole: it ends at the node of the
path, and reports a match when that node is terminal and the last character is one byte. -/
theorem matchLoop_walk (L : Int) :
    ∀ (path : Str) (i : Nat) (t n : trie Handler) (m : Bool) (h : List Handler),
      walk t path = some n → (i : Int) + len path = L + 1 →
      trie.matchLoop L path i t m h =
        (n, [], if endsSingle path = true ∧ n.isEnd = true then (true, n.handlers) else (m, h)) := by
  intro path
  induction path with
  | nil =>
    intro i t n m h hw _
    rw [walk_nil] at hw
    cases hw
    simp [matchLoop_nil, endsSingle]
  | cons w r ih =>
    intro i t n m h hw hi
    rw [walk_cons] at hw
    cases hc : t.child w with
    | none => simp [hc] at hw
    | some c =>
      rw [hc] at hw
      simp only [Option.some_bind] at hw
      rw [matchLoop_cons_some L w r i t c m h hc]
      have hwpos := encodeRune_length_pos w
      rw [len_cons] at hi
      cases r with
      | nil =>
        rw [walk_nil] at hw
        cases hw
        rw [len_nil] at hi
        simp only [matchLoop_nil, endsSingle_singleton, decide_eq_true_eq]
        have e : ((i : Int) = L) ↔ (encodeRune w).length = 1 := by omega
        by_cases h1 : (encodeRune w).length = 1
        · have h2 : (i : Int) = L := e.mpr h1
          by_cases h3 : n.isEnd = true <;> simp [h1, h2, h3]
        · have h2 : ¬ (i : Int) = L := fun h => h1 (e.mp h)
          simp [h1, h2]
      | cons c2 r2 =>
        have hpos : 0 < len (c2 :: r2) := len_pos_of_ne_nil _ (by simp)
        have h2 : ¬ (i : Int) = L := by omega
        simp only [h2, false_and, if_false]
        rw [ih (i + (encodeRune w).length) c n m h hw (by push_cast; omega)]
        rw [endsSingle_cons_cons]

/-- The scan walks through a prefix that is in the trie when the last index lies beyond it. -/
theorem matchLoop_through (L : Int) :
    ∀ (pre rem : Str) (i : Nat) (t n : trie Handler) (m : Bool) (h : List Handler),
      walk t pre = some n → (i : Int) + len pre ≤ L →
      trie.matchLoop L (pre ++ rem) i t m h = trie.matchLoop L rem (i + len pre) n m h := by
  intro pre
  induction pre with
  | nil =>
    intro rem i t n m h hw _
    rw [walk_nil] at hw
    cases hw
    simp [len_nil]
  | cons w r ih =>
    intro rem i t n m h hw hi
    rw [walk_cons] at hw
    cases hc : t.child w with
    | none => simp [hc] at hw
    | some c =>
      rw [hc] at hw
      simp only [Option.some_bind] at hw
      rw [List.cons_append, matchLoop_cons_some L w (r ++ rem) i t c m h hc]
      have hwpos := encodeRune_length_pos w
      rw [len_cons] at hi
      have h2 : ¬ (i : Int) = L := by omega
      simp only [h2, false_and, if_false]
      rw [ih rem (i + (encodeRune w).length) c n m h hw (by push_cast; omega)]
      rw [len_cons, Nat.add_assoc]

/-! ### Fuel -/

theorem height_pos (t : trie Handler) : 0 < t.height := by
  cases t; simp [trie.height]

theorem heightList_mapGet (l : List (Char × trie Handler)) (x : Char) (c : trie Handler)
    (h : mapGet l x = some c) : c.height ≤ trie.heightList l := by
  induction l with
  | nil => simp [mapGet] at h
  | cons e l ih =>
    obtain ⟨k, v⟩ := e
    simp only [mapGet] at h
    simp only [trie.heightList]
    split_ifs at h with hk
    · cases h; exact le_max_left _ _
    · exact le_trans (ih h) (le_max_right _ _)

theorem height_child (t c : trie Handler) (x : Char) (h : t.child x = some c) :
    c.height < t.height := by
  cases t with
  | mk n p s hs e =>
    have := heightList_mapGet n x c h
    simp only [trie.height]
    omega

theorem height_walk (q : Str) : ∀ (t n : trie Handler), walk t q = some n →
    q.length + n.height ≤ t.height := by
  induction q with
  | nil => intro t n h; rw [walk_nil] at h; cases h; simp
  | cons x q ih =>
    intro t n h
    rw [walk_cons] at h
    cases hc : t.child x with
    | none => simp [hc] at h
    | some c =>
      rw [hc] at h
      have h1 := ih c n h
      have h2 := height_child t c x hc
      simp only [List.length_cons]
      omega

theorem matchFuel_succ_of_some : ∀ (f : Nat) (t : trie Handler) (path method : Str)
    (p : List (Str × Str)) (r : Bool × List Handler × List (Str × Str)),
    trie.matchFuel f t path method p = some r → trie.matchFuel (f + 1) t path method p = some r := by
  intro f
  induction f with
  | zero => intro t path method p r h; simp [trie.matchFuel] at h
  | succ f ih =>
    intro t path method p r h
    rw [trie.matchFuel] at h ⊢
    revert h
    rcases trie.matchLoop ((len path : Int) - 1) path 0 t false [] with ⟨t1, rem, mt, hs⟩
    simp only
    split_ifs
    · exact ih _ _ _ _ _
    · exact ih _ _ _ _ _
    · exact id

theorem matchFuel_mono (f g : Nat) (hfg : f ≤ g) (t : trie Handler) (path method : Str)
    (p : List (Str × Str)) (r : Bool × List Handler × List (Str × Str))
    (h : trie.matchFuel f t path method p = some r) :
    trie.matchFuel g t path method p = some r := by
  induction g with
  | zero =>
    have : f = 0 := by omega
    subst this; exact h
  | succ g ih =>
    by_cases hf : f = g + 1
    · subst hf; exact h
    · exact matchFuel_succ_of_some g t path method p r (ih (by omega))

theorem match_of_matchFuel (f : Nat) (t : trie Handler) (hf : f ≤ t.height) (path method : Str)
    (p : List (Str × Str)) (r : Bool × List Handler × List (Str × Str))
    (h : trie.matchFuel f t path method p = some r) :
    trie.match t path method p = some r :=
  matchFuel_mono f t.height hf t path method p r h

/-- A scan that reports a match ends the call. -/
theorem matchFuel_of_matched (f : Nat) (t n : trie Handler) (path method rem : Str)
    (p : List (Str × Str)) (hs : List Handler)
    (h : trie.matchLoop ((len path : Int) - 1) path 0 t false [] = (n, rem, true, hs)) :
    trie.matchFuel (f + 1) t path method p = some (true, hs, p) := by
  rw [trie.matchFuel, h]
  simp

/-- A scan that stops at a node without `:` and `*` children ends the call. -/
theorem matchFuel_of_no_fallback (f : Nat) (t n : trie Handler) (path method rem : Str)
    (p : List (Str × Str)) (mt : Bool) (hs : List Handler)
    (h : trie.matchLoop ((len path : Int) - 1) path 0 t false [] = (n, rem, mt, hs))
    (h1 : n.child paramPrefix = none) (h2 : n.child any = none) :
    trie.matchFuel (f + 1) t path method p = some (mt, hs, p) := by
  rw [trie.matchFuel, h]
  simp [h1, h2]

/-- A path that ends at a terminal node with a one-byte last character is matched with
the handlers of that node. -/
theorem match_of_endAt (t : trie Handler) (path method : Str) (p : List (Str × Str))
    (hs : List Handler) (he : endAt t path = some hs) (h1 : endsSingle path = true) :
    trie.match t path method p = some (true, hs, p) := by
  unfold endAt at he
  cases hw : walk t path with
  | none => simp [hw] at he
  | some n =>
    rw [hw] at he
    simp only at he
    split_ifs at he with hend
    cases he
    have hL := matchLoop_walk ((len path : Int) - 1) path 0 t n false [] hw (by simp)
    simp only [h1, hend, and_self, if_true] at hL
    obtain ⟨k, hk⟩ : ∃ k, t.height = k + 1 := ⟨t.height - 1, by have := height_pos t; omega⟩
    unfold trie.match
    rw [hk]
    exact matchFuel_of_matched k t n path method [] p _ hL

end Match

/-! ## Registration errors -/

/-- C9: `insert` called with no handler panics with the missing-handlers error whatever
the trie, the route and the method are, and leaves the trie as it was. -/
theorem C9_missing_handlers {Handler : Type} (t : trie Handler) (route method : Str) :
    trie.insert t route method [] = (t, some Panic.missingHandlers) := by
  simp [trie.insert]

/-- C7: registering `/a/` after `/a/b` stops with the runtime error "index out of range"
(the conflict check reads the character after the last one), and registering `a:c` after
`/x` and `a:` stops with "slice bounds out of range" (the route holds no `/`): neither is
the missing-handlers nor the wildcard-conflict error. -/
theorem C7_insert_runtime_panic :
    (trie.insert (trie.newTrie : trie Nat) "/a/b".toList "GET".toList [1]).2 = none ∧
    (trie.insert (trie.insert (trie.newTrie : trie Nat) "/a/b".toList "GET".toList [1]).1
      "/a/".toList "GET".toList [2]).2 = some Panic.indexOutOfRange ∧
    (trie.insert (trie.newTrie : trie Nat) "/x".toList "GET".toList [1]).2 = none ∧
    (trie.insert (trie.insert (trie.newTrie : trie Nat) "/x".toList "GET".toList [1]).1
      "a:".toList "GET".toList [2]).2 = none ∧
    (trie.insert (trie.insert (trie.insert (trie.newTrie : trie Nat) "/x".toList "GET".toList [1]).1
      "a:".toList "GET".toList [2]).1 "a:c".toList "GET".toList [3]).2
        = some Panic.sliceOutOfRange := by
  decide

/-- C4 (failing input): from the empty trie `/files/*path` is registered for GET with
handlers `[1]` and then `/files/*.png` for GET with handlers `[2]`. The first registration
returns; the second panics with the wildcard-conflict error, and `match` on
`/files/img.png` then reports no match and no handlers. With the `*` one character
further from the `/`, the registrations of `/files/img*.png` and then `/files/img*.jpg`
both return, and the paths `/files/imgx.png` and `/files/imgx.jpg` resolve each to the
handlers of its own suffix. -/
theorem C4_second_registration_fails :
    (trie.insert (trie.newTrie : trie Nat) "/files/*path".toList "GET".toList [1]).2 = none ∧
    (trie.insert (trie.insert (trie.newTrie : trie Nat) "/files/*path".toList "GET".toList [1]).1
        "/files/*.png".toList "GET".toList [2]).2
      = some (Panic.wildcardConflict (bytes
          "wildcard '*.png' in route ('/files/*.png') conflicts with existing prefix in trie".toList)) ∧
    trie.match (trie.insert (trie.insert (trie.newTrie : trie Nat)
        "/files/*path".toList "GET".toList [1]).1 "/files/*.png".toList "GET".toList [2]).1
        "/files/img.png".toList "GET".toList [] = some (false, [], []) ∧
    (trie.insert (trie.newTrie : trie Nat) "/files/img*.png".toList "GET".toList [1]).2 = none ∧
    (trie.insert (trie.insert (trie.newTrie : trie Nat) "/files/img*.png".toList "GET".toList [1]).1
        "/files/img*.jpg".toList "GET".toList [2]).2 = none ∧
    trie.match (trie.insert (trie.insert (trie.newTrie : trie Nat)
        "/files/img*.png".toList "GET".toList [1]).1 "/files/img*.jpg".toList "GET".toList [2]).1
        "/files/imgx.png".toList "GET".toList [] = some (true, [1], []) ∧
    trie.match (trie.insert (trie.insert (trie.newTrie : trie Nat)
        "/files/img*.png".toList "GET".toList [1]).1 "/files/img*.jpg".toList "GET".toList [2]).1
        "/files/imgx.jpg".toList "GET".toList [] = some (true, [2], []) := by
  refine ⟨?_, ?_, ?_, ?_, ?_, ?_, ?_⟩
  · rfl
  · rfl
  · rfl
  · rfl
  · rfl
  · rfl
  · rfl

/-- Supporting C4: after `/files/*path`, registering `/files/*.png` panics with the
wildcard-conflict error, whatever the handlers; when `/files/` is registered first, so
that the `/` before `*` is terminal, both registrations return and `/files/img.png`
resolves to the handlers of `/files/*.png`. -/
theorem C4_suffix_branch {Handler : Type} (H0 H1 H2 : List Handler)
    (h0 : H0 ≠ []) (h1 : H1 ≠ []) (h2 : H2 ≠ []) (p : List (Str × Str)) :
    (trie.insert (trie.newTrie : trie Handler) "/files/*path".toList "GET".toList H1).2 = none ∧
    (trie.insert (trie.insert (trie.newTrie : trie Handler) "/files/*path".toList "GET".toList H1).1
        "/files/*.png".toList "GET".toList H2).2
      = some (Panic.wildcardConflict (bytes
          "wildcard '*.png' in route ('/files/*.png') conflicts with existing prefix in trie".toList)) ∧
    (∃ t, insertAll (trie.newTrie : trie Handler)
        [⟨"/files/".toList, "GET".toList, H0⟩, ⟨"/files/*path".toList, "GET".toList, H1⟩,
         ⟨"/files/*.png".toList, "GET".toList, H2⟩] = some t ∧
      trie.match t "/files/img.png".toList "GET".toList p = some (true, H2, p)) := by
  refine ⟨?_, ?_, ?_⟩
  · rw [insert_of_ne_nil _ _ _ _ h1]; rfl
  · rw [insert_of_ne_nil _ _ _ _ h1, insert_of_ne_nil _ _ _ _ h2]; rfl
  · simp only [insertAll, insert_of_ne_nil _ _ _ _ h0, insert_of_ne_nil _ _ _ _ h1,
      insert_of_ne_nil _ _ _ _ h2]
    exact ⟨_, rfl, rfl⟩

/-- Supporting C4 at the handler lists `[0]`, `[1]`, `[2]`. -/
theorem C4_suffix_branch_witness :
    ([0] : List Nat) ≠ [] ∧
    (trie.insert (trie.insert (trie.newTrie : trie Nat) "/files/*path".toList "GET".toList [1]).1
        "/files/*.png".toList "GET".toList [2]).2
      = some (Panic.wildcardConflict (bytes
          "wildcard '*.png' in route ('/files/*.png') conflicts with existing prefix in trie".toList)) :=
  ⟨by decide, (C4_suffix_branch [0] [1] [2] (by decide) (by decide) (by decide) []).2.1⟩

/-- C5 (failing input): from the empty trie `/items/:id` is registered for GET with
handlers `[1]` and then `/items/:itemId` for POST with handlers `[2]`. The first
registration returns; the second panics with the wildcard-conflict error, and `match` on
`/items/7` for POST then reports no match. With the `:` one character further from the
`/`, the registrations of `/i:id` for GET and then `/i:itemId` for POST both return, and
`/i7` is matched for GET with `id = 7` and for POST with `itemId = 7`. -/
theorem C5_second_registration_fails :
    (trie.insert (trie.newTrie : trie Nat) "/items/:id".toList "GET".toList [1]).2 = none ∧
    (trie.insert (trie.insert (trie.newTrie : trie Nat) "/items/:id".toList "GET".toList [1]).1
        "/items/:itemId".toList "POST".toList [2]).2
      = some (Panic.wildcardConflict (bytes
          "wildcard ':itemId' in route ('/items/:itemId') conflicts with existing prefix in trie".toList)) ∧
    trie.match (trie.insert (trie.insert (trie.newTrie : trie Nat)
        "/items/:id".toList "GET".toList [1]).1 "/items/:itemId".toList "POST".toList [2]).1
        "/items/7".toList "POST".toList [] = some (false, [], []) ∧
    (trie.insert (trie.newTrie : trie Nat) "/i:id".toList "GET".toList [1]).2 = none ∧
    (trie.insert (trie.insert (trie.newTrie : trie Nat) "/i:id".toList "GET".toList [1]).1
        "/i:itemId".toList "POST".toList [2]).2 = none ∧
    trie.match (trie.insert (trie.insert (trie.newTrie : trie Nat)
        "/i:id".toList "GET".toList [1]).1 "/i:itemId".toList "POST".toList [2]).1
        "/i7".toList "GET".toList [] = some (true, [1], [("id".toList, "7".toList)]) ∧
    trie.match (trie.insert (trie.insert (trie.newTrie : trie Nat)
        "/i:id".toList "GET".toList [1]).1 "/i:itemId".toList "POST".toList [2]).1
        "/i7".toList "POST".toList [] = some (true, [2], [("itemId".toList, "7".toList)]) := by
  refine ⟨?_, ?_, ?_, ?_, ?_, ?_, ?_⟩
  · rfl
  · rfl
  · rfl
  · rfl
  · rfl
  · rfl
  · rfl

/-- Supporting C5: after `/items/:id` for GET, registering `/items/:itemId` for POST panics
with the wildcard-conflict error, whatever the handlers; when `/items/` is registered
first, so that the `/` before `:` is terminal, both registrations return and `/items/7`
is matched for GET with `id = 7` and for POST with `itemId = 7`. -/
theorem C5_per_method_names {Handler : Type} (H0 H1 H2 : List Handler)
    (h0 : H0 ≠ []) (h1 : H1 ≠ []) (h2 : H2 ≠ []) (p q : List (Str × Str)) :
    (trie.insert (trie.newTrie : trie Handler) "/items/:id".toList "GET".toList H1).2 = none ∧
    (trie.insert (trie.insert (trie.newTrie : trie Handler) "/items/:id".toList "GET".toList H1).1
        "/items/:itemId".toList "POST".toList H2).2
      = some (Panic.wildcardConflict (bytes
          "wildcard ':itemId' in route ('/items/:itemId') conflicts with existing prefix in trie".toList)) ∧
    (∃ t, insertAll (trie.newTrie : trie Handler)
        [⟨"/items/".toList, "GET".toList, H0⟩, ⟨"/items/:id".toList, "GET".toList, H1⟩,
         ⟨"/items/:itemId".toList, "POST".toList, H2⟩] = some t ∧
      trie.match t "/items/7".toList "GET".toList p
        = some (true, H1, mapSet p "id".toList "7".toList) ∧
      trie.match t "/items/7".toList "POST".toList q
        = some (true, H2, mapSet q "itemId".toList "7".toList)) := by
  refine ⟨?_, ?_, ?_⟩
  · rw [insert_of_ne_nil _ _ _ _ h1]; rfl
  · rw [insert_of_ne_nil _ _ _ _ h1, insert_of_ne_nil _ _ _ _ h2]; rfl
  · simp only [insertAll, insert_of_ne_nil _ _ _ _ h0, insert_of_ne_nil _ _ _ _ h1,
      insert_of_ne_nil _ _ _ _ h2]
    exact ⟨_, rfl, rfl, rfl⟩

/-- Supporting C5 at the handler lists `[0]`, `[1]`, `[2]`. -/
theorem C5_per_method_names_witness :
    ([0] : List Nat) ≠ [] ∧
    (∃ t, insertAll (trie.newTrie : trie Nat)
        [⟨"/items/".toList, "GET".toList, [0]⟩, ⟨"/items/:id".toList, "GET".toList, [1]⟩,
         ⟨"/items/:itemId".toList, "POST".toList, [2]⟩] = some t ∧
      trie.match t "/items/7".toList "GET".toList []
        = some (true, [1], mapSet [] "id".toList "7".toList) ∧
      trie.match t "/items/7".toList "POST".toList []
        = some (true, [2], mapSet [] "itemId".toList "7".toList)) :=
  ⟨by decide, (C5_per_method_names [0] [1] [2] (by decide) (by decide) (by decide) [] []).2.2⟩

section RoundTrip

variable {Handler : Type}

theorem lastHandlers_of_forall_ne (route : Str) (regs : List (Registration Handler))
    (h : ∀ r ∈ regs, r.route ≠ route) : lastHandlers route regs = none := by
  induction regs with
  | nil => rfl
  | cons r rs ih =>
    have h1 := ih (fun x hx => h x (List.mem_cons_of_mem _ hx))
    have h2 := h r (List.mem_cons_self _ _)
    simp [lastHandlers, h1, h2]

theorem lastHandlers_append_of_some (route : Str) (a b : List (Registration Handler))
    (hs : List Handler) (h : lastHandlers route b = some hs) :
    lastHandlers route (a ++ b) = some hs := by
  induction a with
  | nil => exact h
  | cons r rs ih => simp [lastHandlers, ih]

theorem lastHandlers_mem (route : Str) (regs : List (Registration Handler)) (hs : List Handler)
    (h : lastHandlers route regs = some hs) : ∃ r ∈ regs, r.route = route ∧ r.handlers = hs := by
  induction regs with
  | nil => simp [lastHandlers] at h
  | cons r rs ih =>
    simp only [lastHandlers] at h
    cases hl : lastHandlers route rs with
    | some x =>
      rw [hl] at h
      cases h
      obtain ⟨r1, h1, h2⟩ := ih hl
      exact ⟨r1, List.mem_cons_of_mem _ h1, h2⟩
    | none =>
      rw [hl] at h
      simp only at h
      split_ifs at h with he
      cases h
      exact ⟨r, List.mem_cons_self _ _, he, rfl⟩

theorem lastHandlers_last (R M : Str) (H : List Handler) (before after : List (Registration Handler))
    (hlast : ∀ r ∈ after, r.route ≠ R) :
    lastHandlers R (before ++ ⟨R, M, H⟩ :: after) = some H := by
  apply lastHandlers_append_of_some
  simp [lastHandlers, lastHandlers_of_forall_ne R after hlast]

end RoundTrip

/-- C1: after a sequence of `insert` calls from the empty trie that all return, a
registered non-empty route `R` of single-byte characters is matched, for every method and
every `paramsOut`, with the handlers `H` of the last registration of `R`; `paramsOut` is
left as it was. -/
theorem C1_exact_round_trip {Handler : Type} (before after : List (Registration Handler))
    (R M : Str) (H : List Handler) (t : trie Handler)
    (hall : insertAll trie.newTrie (before ++ ⟨R, M, H⟩ :: after) = some t)
    (hlast : ∀ r ∈ after, r.route ≠ R) (hne : R ≠ []) (hsb : SingleByte R)
    (method : Str) (paramsOut : List (Str × Str)) :
    trie.match t R method paramsOut = some (true, H, paramsOut) := by
  have h1 : endsSingle R = true := endsSingle_of_singleByte R hsb hne
  have h2 := endAt_insertAll _ _ _ hall R
  rw [lastHandlers_last R M H before after hlast] at h2
  simp only [h1, if_true, Option.orElse] at h2
  exact match_of_endAt t R method paramsOut H h2 h1

/-- C1 at `/users`, with two registrations before the last one of `/users` and one
after it: the last handlers of `/users` are returned for POST. -/
theorem C1_exact_round_trip_witness :
    (∃ t : trie Nat, insertAll trie.newTrie
        ([⟨"/users".toList, "GET".toList, [1]⟩, ⟨"/users/:id".toList, "GET".toList, [2]⟩] ++
          ⟨"/users".toList, "PUT".toList, [3]⟩ :: [⟨"/u".toList, "GET".toList, [4]⟩]) = some t ∧
      trie.match t "/users".toList "POST".toList [("k".toList, "v".toList)]
        = some (true, [3], [("k".toList, "v".toList)])) :=
  ⟨_, rfl, C1_exact_round_trip
    [⟨"/users".toList, "GET".toList, [1]⟩, ⟨"/users/:id".toList, "GET".toList, [2]⟩]
    [⟨"/u".toList, "GET".toList, [4]⟩] "/users".toList "PUT".toList [3] _ rfl
    (by decide) (by decide) (by unfold SingleByte; decide) "POST".toList [("k".toList, "v".toList)]⟩

section Static

variable {Handler : Type}

theorem walk_setEnd_isSome (t : trie Handler) (hs : List Handler) (q : Str) :
    (walk (t.setEnd hs) q).isSome = (walk t q).isSome := by
  cases q with
  | nil => simp [walk_nil]
  | cons x q => simp [walk_cons]

/-- Every node of the trie after a run of the loop of `insert` was there before or lies
on the inserted route. -/
theorem walk_insertLoop (route method : Str) (hs : List Handler) :
    ∀ (rest : Str) (i : Nat) (t : trie Handler) (q : Str),
      (walk (trie.insertLoop route method hs rest i t).1 q).isSome = true →
      (walk t q).isSome = true ∨ q <+: rest := by
  intro rest
  induction rest with
  | nil => intro i t q h; left; simpa [insertLoop_nil] using h
  | cons w r ih =>
    intro i t q h
    cases hc : t.insertChild route i w with
    | error p =>
      rw [insertLoop_cons_error _ _ _ _ _ _ _ _ hc] at h
      left; exact h
    | ok c =>
      rw [insertLoop_cons_ok _ _ _ _ _ _ _ _ hc] at h
      cases q with
      | nil => left; simp [walk_nil]
      | cons x q =>
        rw [walk_cons] at h
        by_cases hx : w = x
        · subst hx
          simp only [child_setChild, if_true, Option.some_bind] at h
          rcases ih _ _ _ h with h1 | h1
          · have h2 : (walk c q).isSome = true := by
              split_ifs at h1
              · rwa [walk_setEnd_isSome] at h1
              · exact h1
            rcases insertChild_ok t c route i w hc with ⟨_, rfl⟩ | h3
            · right
              cases hq : walk (trie.newTrie : trie Handler) q with
              | none => simp [hq] at h2
              | some n =>
                have := walk_newTrie q n hq
                subst this
                simp
            · left
              simp [walk_cons, h3, h2]
          · right
            exact (List.prefix_cons_inj w).mpr h1
        · left
          simpa [walk_cons, hx] using h

theorem walk_insert (t : trie Handler) (route method : Str) (hs : List Handler) (q : Str)
    (h : (walk (trie.insert t route method hs).1 q).isSome = true) :
    (walk t q).isSome = true ∨ q <+: route := by
  unfold trie.insert at h
  split_ifs at h
  · left; exact h
  · exact walk_insertLoop route method hs route 0 t q h

theorem walk_insertAll (regs : List (Registration Handler)) :
    ∀ (t T : trie Handler), insertAll t regs = some T → ∀ q, (walk T q).isSome = true →
      (walk t q).isSome = true ∨ ∃ r ∈ regs, q <+: r.route := by
  induction regs with
  | nil =>
    intro t T h q hq
    simp only [insertAll] at h
    cases h
    left; exact hq
  | cons r rs ih =>
    intro t T h q hq
    simp only [insertAll] at h
    cases hr : trie.insert t r.route r.method r.handlers with
    | mk t1 p =>
      rw [hr] at h
      cases p with
      | some p => simp at h
      | none =>
        simp only at h
        rcases ih t1 T h q hq with h1 | ⟨r1, h1, h2⟩
        · have h3 : t1 = (trie.insert t r.route r.method r.handlers).1 := by rw [hr]
          rw [h3] at h1
          rcases walk_insert t _ _ _ q h1 with h4 | h4
          · left; exact h4
          · right; exact ⟨r, List.mem_cons_self _ _, h4⟩
        · right; exact ⟨r1, List.mem_cons_of_mem _ h1, h2⟩

/-- A trie built from routes without the character `x` has no edge labelled `x`. -/
theorem child_none_of_not_mem (regs : List (Registration Handler)) (T n : trie Handler)
    (hall : insertAll trie.newTrie regs = some T) (x : Char)
    (hx : ∀ r ∈ regs, x ∉ r.route) (q : Str) (hq : walk T q = some n) :
    n.child x = none := by
  cases hc : n.child x with
  | none => rfl
  | some c =>
    exfalso
    have h1 : (walk T (q ++ [x])).isSome = true := by
      rw [walk_append, hq]
      simp [walk_cons, hc, walk_nil]
    rcases walk_insertAll regs _ _ hall _ h1 with h2 | ⟨r, h2, h3⟩
    · cases hw : walk (trie.newTrie : trie Handler) (q ++ [x]) with
      | none => simp [hw] at h2
      | some m =>
        have := walk_newTrie _ _ hw
        simp at this
    · apply hx r h2
      apply h3.subset
      simp

/-- The scan stops at the end of the path or at the first character without an edge. -/
theorem walk_or_stop (path : Str) : ∀ (t : trie Handler),
    (∃ n, walk t path = some n) ∨
    (∃ pre x rem n, path = pre ++ x :: rem ∧ walk t pre = some n ∧ n.child x = none) := by
  induction path with
  | nil => intro t; left; exact ⟨t, rfl⟩
  | cons w r ih =>
    intro t
    cases hc : t.child w with
    | none => right; exact ⟨[], w, r, t, rfl, rfl, hc⟩
    | some c =>
      rcases ih c with ⟨n, hn⟩ | ⟨pre, x, rem, n, h1, h2, h3⟩
      · left; exact ⟨n, by simp [walk_cons, hc, hn]⟩
      · right
        refine ⟨w :: pre, x, rem, n, by simp [h1], ?_, h3⟩
        simp [walk_cons, hc, h2]

theorem endAt_of_walk (t n : trie Handler) (q : Str) (h : walk t q = some n) :
    endAt t q = if n.isEnd then some n.handlers else none := by
  simp [endAt, h]

end Static

/-- C8 (failing input): the static route `/é` is registered for GET on the empty trie. The
registration returns, `/é` is a registered non-empty route with handlers `[1]`, and yet
`match` on the path `/é` reports no match and no handlers: the last character of the
route is two bytes long, so its node was never marked terminal. The route `/éa`, with
the same character before a last one of one byte, is matched. -/
theorem C8_multibyte_route_not_matched :
    (∃ t : trie Nat, insertAll trie.newTrie [⟨"/é".toList, "GET".toList, [1]⟩] = some t ∧
      lastHandlers "/é".toList [(⟨"/é".toList, "GET".toList, [1]⟩ : Registration Nat)] = some [1] ∧
      trie.match t "/é".toList "GET".toList [] = some (false, [], [])) ∧
    (∃ t : trie Nat, insertAll trie.newTrie [⟨"/éa".toList, "GET".toList, [1]⟩] = some t ∧
      trie.match t "/éa".toList "GET".toList [] = some (true, [1], [])) :=
  ⟨⟨_, rfl, by decide, by decide⟩, ⟨_, rfl, by decide⟩⟩

/-- Supporting C8: in a trie built from the empty trie by returning registrations of
routes without `:` and `*`, a path is matched, with the handlers of its last
registration, exactly when it is a registered non-empty route whose last character is
one byte long; every other path gives `(false, nil)`. `paramsOut` is left as it was. -/
theorem C8_static_routes {Handler : Type} (regs : List (Registration Handler))
    (t : trie Handler) (hall : insertAll trie.newTrie regs = some t)
    (hstatic : ∀ r ∈ regs, paramPrefix ∉ r.route ∧ any ∉ r.route)
    (path method : Str) (p : List (Str × Str)) :
    (∀ H, path ≠ [] → endsSingle path = true → lastHandlers path regs = some H →
      trie.match t path method p = some (true, H, p)) ∧
    ((path = [] ∨ endsSingle path = false ∨ lastHandlers path regs = none) →
      trie.match t path method p = some (false, [], p)) := by
  have hend := endAt_insertAll regs _ _ hall path
  simp only [endAt_newTrie] at hend
  constructor
  · intro H _ h1 hl
    rw [hl] at hend
    simp only [h1, if_true, Option.orElse] at hend
    exact match_of_endAt t path method p H hend h1
  · intro hno
    have hend2 : endAt t path = none := by
      rw [hend]
      rcases hno with rfl | he | hl
      · simp [endsSingle]
      · simp [he]
      · rw [hl]; simp [Option.orElse]
    obtain ⟨k, hk⟩ : ∃ k, t.height = k + 1 := ⟨t.height - 1, by have := height_pos t; omega⟩
    unfold trie.match
    rw [hk]
    rcases walk_or_stop path t with ⟨n, hn⟩ | ⟨pre, x, rem, n, h1, h2, h3⟩
    · have hL := matchLoop_walk ((len path : Int) - 1) path 0 t n false [] hn (by simp)
      rw [endAt_of_walk t n path hn] at hend2
      have hne : n.isEnd = false := by
        cases h : n.isEnd with
        | false => rfl
        | true => simp [h] at hend2
      simp only [hne, Bool.false_eq_true, and_false, if_false] at hL
      exact matchFuel_of_no_fallback k t n path method [] p false [] hL
        (child_none_of_not_mem regs t n hall _ (fun r hr => (hstatic r hr).1) path hn)
        (child_none_of_not_mem regs t n hall _ (fun r hr => (hstatic r hr).2) path hn)
    · have hpos : 0 < len (x :: rem) := len_pos_of_ne_nil _ (by simp)
      have hL := matchLoop_through ((len path : Int) - 1) pre (x :: rem) 0 t n false [] h2
        (by rw [h1, len_append]; push_cast; omega)
      rw [matchLoop_cons_none _ _ _ _ _ _ _ h3, ← h1] at hL
      exact matchFuel_of_no_fallback k t n path method (x :: rem) p false [] hL
        (child_none_of_not_mem regs t n hall _ (fun r hr => (hstatic r hr).1) pre h2)
        (child_none_of_not_mem regs t n hall _ (fun r hr => (hstatic r hr).2) pre h2)

/-- Supporting C8 at the route `/a/b` and the query `/a/c`. -/
theorem C8_static_routes_witness :
    (∃ t : trie Nat, insertAll trie.newTrie [⟨"/a/b".toList, "GET".toList, [1]⟩] = some t ∧
      trie.match t "/a/c".toList "GET".toList [] = some (false, [], [])) :=
  ⟨_, rfl, (C8_static_routes [⟨"/a/b".toList, "GET".toList, [1]⟩] _ rfl (by decide)
    "/a/c".toList "GET".toList []).2 (Or.inr (Or.inr (by decide)))⟩

section Conflict

variable {Handler : Type}

theorem len_singleton (w : Char) : len [w] = (encodeRune w).length := by
  simp [len_cons, len_nil]

theorem bytes_drop_len (pre rest : Str) : (bytes (pre ++ rest)).drop (len pre) = bytes rest := by
  simp [bytes_append, len]

/-- After a character of one byte at offset `len pre`, the bytes from the next index on
are those of the rest of the route. -/
theorem bytes_drop_succ (pre r : Str) (w : Char) (hw : (encodeRune w).length = 1) :
    (bytes (pre ++ w :: r)).drop (len pre + 1) = bytes r := by
  have h : pre ++ w :: r = (pre ++ [w]) ++ r := by simp
  rw [h, ← hw, ← len_singleton, ← len_append]
  exact bytes_drop_len _ _

theorem encodeRune_slash : encodeRune slash = [0x2F] := by decide
theorem encodeRune_paramPrefix : encodeRune paramPrefix = [0x3A] := by decide
theorem encodeRune_any : encodeRune any = [0x2A] := by decide

/-- What a conflict check that reports nothing has seen, at a `/` of the route. -/
theorem checkConflictWildcard_slash_ok (t s : trie Handler) (pre r : Str)
    (hs : t.child slash = some s)
    (h : t.checkConflictWildcard (pre ++ slash :: r) (len pre) = .ok none) :
    (∃ x r1, r = x :: r1 ∧ x ≠ paramPrefix ∧ x ≠ any) ∧
      s.child paramPrefix = none ∧ s.child any = none := by
  unfold trie.checkConflictWildcard at h
  simp only [bytes_drop_succ pre r slash (by decide), hs] at h
  split_ifs at h with h0
  cases r with
  | nil => simp [bytes] at h
  | cons x r1 =>
    cases hb : bytes (x :: r1) with
    | nil =>
      have := len_pos_of_ne_nil (x :: r1) (by simp)
      simp [len, hb] at this
    | cons b bs =>
      rw [hb] at h
      simp only at h
      split_ifs at h with hcond
      · split at h <;> cases h
      · simp only [Bool.or_eq_true, decide_eq_true_eq, Option.isSome_iff_exists, not_or,
          not_exists] at hcond
        obtain ⟨⟨hb1, hb2⟩, hc1, hc2⟩ := hcond
        refine ⟨⟨x, r1, rfl, ?_, ?_⟩, ?_, ?_⟩
        · rintro rfl
          simp [bytes, encodeRune_paramPrefix] at hb
          exact hb1 hb.1.symm
        · rintro rfl
          simp [bytes, encodeRune_any] at hb
          exact hb2 hb.1.symm
        · cases hx : s.child paramPrefix with
          | none => rfl
          | some y => exact absurd hx (hc1 y)
        · cases hx : s.child any with
          | none => rfl
          | some y => exact absurd hx (hc2 y)

/-- Stepping onto an existing `/` child that is not terminal runs the conflict check. -/
theorem insertChild_slash_checked (t c s : trie Handler) (route : Str) (i : Nat)
    (h : t.insertChild route i slash = .ok c) (hs : t.child slash = some s)
    (hne : s.isEnd = false) :
    c = s ∧ t.checkConflictWildcard route i = .ok none := by
  unfold trie.insertChild at h
  simp only [hs, hne, Bool.not_false, if_true] at h
  cases hc : t.checkConflictWildcard route i with
  | error p => simp [hc] at h
  | ok o =>
    cases o with
    | some m => simp [hc] at h
    | none =>
      simp only [hc] at h
      cases h
      exact ⟨rfl, rfl⟩

theorem isEnd_insertLoop (route method : Str) (hs : List Handler) (rest : Str) (i : Nat)
    (t : trie Handler) : (trie.insertLoop route method hs rest i t).1.isEnd = t.isEnd := by
  cases rest with
  | nil => rfl
  | cons w r =>
    cases hc : t.insertChild route i w with
    | error p => rw [insertLoop_cons_error _ _ _ _ _ _ _ _ hc]
    | ok c => rw [insertLoop_cons_ok _ _ _ _ _ _ _ _ hc]; simp

theorem child_insertLoop (route method : Str) (hs : List Handler) (rest : Str) (i : Nat)
    (t : trie Handler) (x : Char)
    (h : ((trie.insertLoop route method hs rest i t).1.child x).isSome = true) :
    (t.child x).isSome = true ∨ rest.head? = some x := by
  cases rest with
  | nil => left; exact h
  | cons w r =>
    cases hc : t.insertChild route i w with
    | error p => rw [insertLoop_cons_error _ _ _ _ _ _ _ _ hc] at h; left; exact h
    | ok c =>
      rw [insertLoop_cons_ok _ _ _ _ _ _ _ _ hc] at h
      by_cases hx : w = x
      · right; simp [hx]
      · left; simpa [hx] using h

theorem slashInv_newTrie : SlashInv (trie.newTrie : trie Handler) := by
  intro q n h
  have := walk_newTrie _ _ h
  simp at this

theorem slashInv_setEnd (t : trie Handler) (hs : List Handler) (h : SlashInv t) :
    SlashInv (t.setEnd hs) := by
  intro q n hq
  apply h q n
  cases q with
  | nil => simpa [walk_cons] using hq
  | cons x q => simpa [walk_cons] using hq

theorem slashInv_child (t c : trie Handler) (w : Char) (hc : t.child w = some c)
    (h : SlashInv t) : SlashInv c := by
  intro q n hq
  apply h (w :: q) n
  simp [walk_cons, hc, hq]

theorem slashInv_insertLoop (route method : Str) (hs : List Handler) :
    ∀ (rest pre : Str) (t T : trie Handler), route = pre ++ rest → SlashInv t →
      trie.insertLoop route method hs rest (len pre) t = (T, none) → SlashInv T := by
  intro rest
  induction rest with
  | nil =>
    intro pre t T _ hinv h
    rw [insertLoop_nil] at h
    cases h
    exact hinv
  | cons w r ih =>
    intro pre t T hroute hinv h
    cases hc : t.insertChild route (len pre) w with
    | error p =>
      rw [insertLoop_cons_error _ _ _ _ _ _ _ _ hc] at h
      cases h
    | ok c =>
      rw [insertLoop_cons_ok _ _ _ _ _ _ _ _ hc] at h
      obtain ⟨hT, hR⟩ := Prod.mk.inj h
      have hinvc : SlashInv c := by
        rcases insertChild_ok t c route _ w hc with ⟨_, rfl⟩ | h3
        · exact slashInv_newTrie
        · exact slashInv_child t c w h3 hinv
      have hinvc1 : SlashInv (if (len pre : Int) = (len route : Int) - 1 then c.setEnd hs else c) := by
        split_ifs
        · exact slashInv_setEnd c hs hinvc
        · exact hinvc
      have hpre : len pre + (encodeRune w).length = len (pre ++ [w]) := by
        rw [len_append, len_singleton]
      rw [hpre] at hT hR
      have hinvR := ih (pre ++ [w]) _ _ (by simp [hroute]) hinvc1 (Prod.ext rfl hR)
      subst hT
      intro q n hq hne hamb
      cases q with
      | nil =>
        simp only [List.nil_append, walk_cons, child_setChild, child_recordParam,
          child_recordSuffix] at hq
        by_cases hw : w = slash
        · subst hw
          simp only [if_true, Option.some_bind, walk_nil, Option.some.injEq] at hq
          subst hq
          rw [isEnd_insertLoop] at hne
          have hc1 : (if (len pre : Int) = (len route : Int) - 1 then c.setEnd hs else c) = c := by
            split_ifs with hl
            · simp [hl] at hne
            · rfl
          rw [hc1] at hne hamb
          obtain ⟨a, b, hab, ha, hca, hcb⟩ := hamb
          have hca2 := child_insertLoop _ _ _ _ _ _ _ hca
          have hcb2 := child_insertLoop _ _ _ _ _ _ _ hcb
          rcases insertChild_ok t c route _ slash hc with ⟨_, rfl⟩ | h3
          · simp only [child_newTrie, Option.isSome_none, Bool.false_eq_true, false_or] at hca2 hcb2
            rw [hca2] at hcb2
            exact hab (Option.some.inj hcb2)
          · obtain ⟨_, hchk⟩ := insertChild_slash_checked t c c route _ hc h3 hne
            rw [hroute] at hchk
            obtain ⟨⟨x, r1, rfl, hx1, hx2⟩, hs1, hs2⟩ :=
              checkConflictWildcard_slash_ok t c pre r h3 hchk
            rcases hca2 with h5 | h5
            · rcases ha with rfl | rfl
              · simp [hs1] at h5
              · simp [hs2] at h5
            · simp only [List.head?_cons, Option.some.injEq] at h5
              rcases ha with rfl | rfl
              · exact hx1 h5
              · exact hx2 h5
        · have hq2 : walk t ([] ++ [slash]) = some n := by
            simpa [walk_cons, hw] using hq
          exact hinv [] n hq2 hne hamb
      | cons y q =>
        simp only [List.cons_append, walk_cons, child_setChild, child_recordParam,
          child_recordSuffix] at hq
        by_cases hw : w = y
        · subst hw
          simp only [if_true, Option.some_bind] at hq
          exact hinvR q n hq hne hamb
        · have hq2 : walk t ((y :: q) ++ [slash]) = some n := by
            simpa [walk_cons, hw] using hq
          exact hinv _ n hq2 hne hamb

theorem slashInv_insertAll (regs : List (Registration Handler)) :
    ∀ (t T : trie Handler), SlashInv t → insertAll t regs = some T → SlashInv T := by
  induction regs with
  | nil =>
    intro t T hinv h
    simp only [insertAll] at h
    cases h
    exact hinv
  | cons r rs ih =>
    intro t T hinv h
    simp only [insertAll] at h
    cases hr : trie.insert t r.route r.method r.handlers with
    | mk t1 p =>
      rw [hr] at h
      cases p with
      | some p => simp at h
      | none =>
        simp only at h
        refine ih t1 T ?_ h
        unfold trie.insert at hr
        split_ifs at hr
        · cases hr
        · exact slashInv_insertLoop r.route r.method r.handlers r.route [] t t1 rfl hinv hr

end Conflict

/-- C10 (as stated, refuted): the registrations of `/`, `/a` and `/:x` all return, and
afterwards the node reached through the `/` edge has a `:` child and an `a` child. -/
theorem C10_terminal_slash_is_ambiguous :
    ∃ t n : trie Nat,
      insertAll trie.newTrie [⟨"/".toList, "GET".toList, [1]⟩, ⟨"/a".toList, "GET".toList, [2]⟩,
        ⟨"/:x".toList, "GET".toList, [3]⟩] = some t ∧
      walk t ([] ++ [slash]) = some n ∧ Ambiguous n :=
  ⟨_, _, rfl, rfl, ':', 'a', by decide, Or.inl rfl, by decide, by decide⟩

/-- C10 (amended): after a sequence of `insert` calls from the empty trie that all
return, no node that is reached through a `/` edge and is not terminal has a `:` or `*`
child next to a child under another key. -/
theorem C10_no_ambiguity_below_open_slash {Handler : Type} (regs : List (Registration Handler))
    (t : trie Handler) (hall : insertAll trie.newTrie regs = some t)
    (q : Str) (n : trie Handler) (hq : walk t (q ++ [slash]) = some n)
    (hne : n.isEnd = false) : ¬ Ambiguous n :=
  slashInv_insertAll regs _ _ slashInv_newTrie hall q n hq hne

/-- C10 (amended) at the routes `/a/b` and `/a/c` and the node below `/a/`. -/
theorem C10_no_ambiguity_below_open_slash_witness :
    ∃ t n : trie Nat,
      insertAll trie.newTrie [⟨"/a/b".toList, "GET".toList, [1]⟩,
        ⟨"/a/c".toList, "GET".toList, [2]⟩] = some t ∧
      walk t ("/a".toList ++ [slash]) = some n ∧ n.isEnd = false ∧ ¬ Ambiguous n :=
  ⟨_, _, rfl, rfl, rfl,
    C10_no_ambiguity_below_open_slash
      [⟨"/a/b".toList, "GET".toList, [1]⟩, ⟨"/a/c".toList, "GET".toList, [2]⟩] _ rfl
      "/a".toList _ rfl rfl⟩

section Chain

variable {Handler : Type}

theorem indexByte_of_mem (b : Nat) (l : List Nat) (h : b ∈ l) : ∃ k, indexByte b l = some k := by
  induction l with
  | nil => simp at h
  | cons x l ih =>
    by_cases hx : x = b
    · exact ⟨0, by simp [indexByte, hx]⟩
    · have h1 : b ∈ l := by
        rcases List.mem_cons.mp h with h2 | h2
        · exact absurd h2.symm hx
        · exact h2
      obtain ⟨k, hk⟩ := ih h1
      exact ⟨k + 1, by simp [indexByte, hx, hk]⟩

theorem slash_byte_mem (pre r : Str) : 0x2F ∈ bytes (pre ++ slash :: r) := by
  rw [bytes_append]
  simp [bytes, encodeRune_slash]

/-- The first byte of the encoding of a character is `:` or `*` only for that character. -/
theorem encodeRune_head (z : Char) (b : Nat) (bs : List Nat) (h : encodeRune z = b :: bs) :
    (b = 0x3A → z = paramPrefix) ∧ (b = 0x2A → z = any) := by
  unfold encodeRune at h
  simp only at h
  have key : ∀ k : Nat, z.toNat = k → z = Char.ofNat k := by
    intro k hk; rw [← hk, Char.ofNat_toNat]
  split_ifs at h
  · simp only [List.cons.injEq] at h
    obtain ⟨h1, _⟩ := h
    constructor
    · intro hb; exact key 0x3A (by omega)
    · intro hb; exact key 0x2A (by omega)
  · simp only [List.cons.injEq] at h
    obtain ⟨h1, _⟩ := h
    constructor <;> intro hb <;> omega
  · simp only [List.cons.injEq] at h
    obtain ⟨h1, _⟩ := h
    constructor <;> intro hb <;> omega
  · simp only [List.cons.injEq] at h
    obtain ⟨h1, _⟩ := h
    constructor <;> intro hb <;> omega

/-- The conflict check at a `/` of the route reports nothing when the next character is
neither `:` nor `*` and the `/` child has neither a `:` nor a `*` child. -/
theorem checkConflictWildcard_slash_none (t s : trie Handler) (pre rest : Str)
    (hs : t.child slash = some s) (h1 : s.child paramPrefix = none) (h2 : s.child any = none)
    (hne : rest ≠ []) (hz : ∀ z, rest.head? = some z → z ≠ paramPrefix ∧ z ≠ any) :
    t.checkConflictWildcard (pre ++ slash :: rest) (len pre) = .ok none := by
  cases rest with
  | nil => exact absurd rfl hne
  | cons z r =>
    obtain ⟨hz1, hz2⟩ := hz z rfl
    unfold trie.checkConflictWildcard
    simp only [bytes_drop_succ pre (z :: r) slash (by decide), hs]
    have hlen : ¬ len (pre ++ slash :: z :: r) < len pre + 1 := by
      rw [len_append, len_cons]
      have := encodeRune_length_pos slash
      omega
    simp only [hlen, if_false]
    cases hb : encodeRune z with
    | nil =>
      have := encodeRune_length_pos z
      simp [hb] at this
    | cons b bs =>
      have hh := encodeRune_head z b bs hb
      have hb1 : ¬ b = 0x3A := fun h => hz1 (hh.1 h)
      have hb2 : ¬ b = 0x2A := fun h => hz2 (hh.2 h)
      simp [bytes, hb, hb1, hb2, h1, h2]

/-- The conflict check at a `/` of the route reports a conflict when the next character
is `:` or `*`. -/
theorem checkConflictWildcard_slash_some (t s : trie Handler) (pre r : Str) (z : Char)
    (hs : t.child slash = some s) (hz : z = paramPrefix ∨ z = any) :
    ∃ msg, t.checkConflictWildcard (pre ++ slash :: z :: r) (len pre) = .ok (some msg) := by
  unfold trie.checkConflictWildcard
  simp only [bytes_drop_succ pre (z :: r) slash (by decide), hs]
  have hlen : ¬ len (pre ++ slash :: z :: r) < len pre + 1 := by
    rw [len_append, len_cons]
    have := encodeRune_length_pos slash
    omega
  obtain ⟨k, hk⟩ := indexByte_of_mem _ _ (slash_byte_mem pre (z :: r))
  simp only [hlen, if_false, hk]
  rcases hz with rfl | rfl
  · simp [bytes, encodeRune_paramPrefix]
  · simp [bytes, encodeRune_any]

theorem insertChild_of_child_none (t : trie Handler) (route : Str) (i : Nat) (w : Char)
    (h : t.child w = none) : t.insertChild route i w = .ok trie.newTrie := by
  simp [trie.insertChild, h]

theorem child_of_node_nil (t : trie Handler) (h : t.node = []) (x : Char) : t.child x = none := by
  simp [trie.child, h, mapGet]

/-- Inserting below a node without children never panics. -/
theorem insertLoop_fresh (route method : Str) (hs : List Handler) :
    ∀ (rest : Str) (i : Nat) (t : trie Handler), t.node = [] →
      (trie.insertLoop route method hs rest i t).2 = none := by
  intro rest
  induction rest with
  | nil => intro i t _; rfl
  | cons w r ih =>
    intro i t ht
    rw [insertLoop_cons_ok _ _ _ _ _ _ _ _
      (insertChild_of_child_none t route i w (child_of_node_nil t ht w))]
    apply ih
    split_ifs <;> simp

theorem insert_newTrie_ok (route method : Str) (hs : List Handler) (h : hs ≠ []) :
    (trie.insert (trie.newTrie : trie Handler) route method hs).2 = none := by
  rw [insert_of_ne_nil _ _ _ _ h]
  exact insertLoop_fresh route method hs route 0 _ rfl

/-- The first step of an insertion below a new node, when the route goes on. -/
theorem insertLoop_newTrie_cons (route method : Str) (hs : List Handler) (pre : Str)
    (w : Char) (tail : Str) (hne : tail ≠ []) (hroute : route = pre ++ w :: tail) :
    (trie.insertLoop route method hs (w :: tail) (len pre) (trie.newTrie : trie Handler)).1 =
      (trie.recordParam (trie.recordSuffix ((trie.newTrie : trie Handler).setChild w trie.newTrie)
          w tail) w method tail).setChild w
        (trie.insertLoop route method hs tail (len (pre ++ [w])) trie.newTrie).1 := by
  rw [insertLoop_cons_ok _ _ _ _ _ _ _ _
    (insertChild_of_child_none _ route (len pre) w (child_newTrie w))]
  have hnl : ¬ ((len pre : Int) = (len route : Int) - 1) := by
    intro h
    have := (index_eq_last route (len pre) w tail (by rw [hroute, len_append])).mp h
    exact hne this.1
  simp only [hnl, if_false]
  rw [len_append, len_singleton]

theorem head?_append_slash (P1 t : Str) (c : Char) (h : (P1 ++ slash :: t).head? = some c) :
    c ∈ P1 ∨ c = slash := by
  cases P1 with
  | nil => right; simpa using h.symm
  | cons z r => left; simp at h; simp [h]

end Chain

section ConflictOrders

variable {Handler : Type}

/-- Registering `P0/yb` in the trie of the sole route `P0/xa`, with `y` among `:` and
`*` and neither of them in `P0`, panics with the wildcard-conflict error. -/
theorem insertLoop_conflict (route1 method1 : Str) (hs1 : List Handler)
    (route2 method2 : Str) (hs2 : List Handler) (x y : Char) (a b : Str)
    (hy : y = paramPrefix ∨ y = any) :
    ∀ (P0 pre1 pre2 : Str), paramPrefix ∉ P0 → any ∉ P0 →
      route1 = pre1 ++ P0 ++ slash :: x :: a → route2 = pre2 ++ P0 ++ slash :: y :: b →
      ∃ msg, (trie.insertLoop route2 method2 hs2 (P0 ++ slash :: y :: b) (len pre2)
          (trie.insertLoop route1 method1 hs1 (P0 ++ slash :: x :: a) (len pre1)
            (trie.newTrie : trie Handler)).1).2 = some (Panic.wildcardConflict msg) := by
  intro P0
  induction P0 with
  | nil =>
    intro pre1 pre2 _ _ h1 h2
    simp only [List.nil_append, List.append_nil] at h1 h2 ⊢
    rw [insertLoop_newTrie_cons route1 method1 hs1 pre1 slash (x :: a) (by simp) h1]
    set S := (trie.insertLoop route1 method1 hs1 (x :: a) (len (pre1 ++ [slash]))
      (trie.newTrie : trie Handler)).1 with hS
    have hSend : S.isEnd = false := by rw [hS, isEnd_insertLoop]; rfl
    obtain ⟨msg, hmsg⟩ := checkConflictWildcard_slash_some
      ((trie.recordParam (trie.recordSuffix ((trie.newTrie : trie Handler).setChild slash
          trie.newTrie) slash (x :: a)) slash method1 (x :: a)).setChild slash S)
      S pre2 b y (by simp) hy
    refine ⟨msg, ?_⟩
    rw [insertLoop_cons_error _ _ _ _ _ _ _ (Panic.wildcardConflict msg)]
    unfold trie.insertChild
    simp only [child_setChild, if_true, hSend, Bool.not_false]
    rw [h2, hmsg]
  | cons w P1 ih =>
    intro pre1 pre2 hp1 hp2 h1 h2
    have hp1' : paramPrefix ∉ P1 := fun h => hp1 (List.mem_cons_of_mem _ h)
    have hp2' : any ∉ P1 := fun h => hp2 (List.mem_cons_of_mem _ h)
    have h1' : route1 = (pre1 ++ [w]) ++ P1 ++ slash :: x :: a := by simp [h1]
    have h2' : route2 = (pre2 ++ [w]) ++ P1 ++ slash :: y :: b := by simp [h2]
    obtain ⟨msg, hmsg⟩ := ih (pre1 ++ [w]) (pre2 ++ [w]) hp1' hp2' h1' h2'
    refine ⟨msg, ?_⟩
    simp only [List.cons_append]
    rw [insertLoop_newTrie_cons route1 method1 hs1 pre1 w (P1 ++ slash :: x :: a) (by simp)
      (by rw [h1]; simp)]
    set S := (trie.insertLoop route1 method1 hs1 (P1 ++ slash :: x :: a) (len (pre1 ++ [w]))
      (trie.newTrie : trie Handler)).1 with hS
    have hSend : S.isEnd = false := by rw [hS, isEnd_insertLoop]; rfl
    have hSchild : ∀ c, (c = paramPrefix ∨ c = any) → S.child c = none := by
      intro c hc
      cases hcc : S.child c with
      | none => rfl
      | some v =>
        exfalso
        have h3 := child_insertLoop route1 method1 hs1 _ _ _ c (by rw [← hS, hcc]; rfl)
        simp only [child_newTrie, Option.isSome_none, Bool.false_eq_true, false_or] at h3
        rcases head?_append_slash P1 _ c h3 with h4 | h4
        · rcases hc with rfl | rfl
          · exact hp1' h4
          · exact hp2' h4
        · rcases hc with rfl | rfl
          · exact absurd h4 (by decide)
          · exact absurd h4 (by decide)
    have hchild : trie.insertChild
        ((trie.recordParam (trie.recordSuffix ((trie.newTrie : trie Handler).setChild w
          trie.newTrie) w (P1 ++ slash :: x :: a)) w method1 (P1 ++ slash :: x :: a)).setChild w S)
        route2 (len pre2) w = .ok S := by
      unfold trie.insertChild
      simp only [child_setChild, if_true, child_recordParam, child_recordSuffix, child_newTrie]
      by_cases hws : w = slash
      · subst hws
        simp only [if_true, hSend, Bool.not_false]
        rw [h2, List.append_assoc, List.cons_append,
          checkConflictWildcard_slash_none _ S pre2 (P1 ++ slash :: y :: b) (by simp)
            (hSchild _ (Or.inl rfl)) (hSchild _ (Or.inr rfl)) (by simp)]
        intro z hz
        rcases head?_append_slash P1 _ z hz with h4 | h4
        · exact ⟨fun h => hp1' (h ▸ h4), fun h => hp2' (h ▸ h4)⟩
        · subst h4; exact ⟨by decide, by decide⟩
      · simp [hws]
    rw [insertLoop_cons_ok _ _ _ _ _ _ _ _ hchild]
    have hnl : ¬ ((len pre2 : Int) = (len route2 : Int) - 1) := by
      intro h
      have := (index_eq_last route2 (len pre2) w (P1 ++ slash :: y :: b)
        (by rw [h2, List.append_assoc, len_append]; rfl)).mp h
      simp at this
    simp only [hnl, if_false]
    rw [← len_singleton, ← len_append]
    exact hmsg

end ConflictOrders

/-- C6: for a prefix `P` without `:` and `*` that ends in `/`, all `a` and `b` and
non-empty handler lists, from the empty trie: `insert(P*a)` returns and a following
`insert(P:b)` panics with the wildcard-conflict error; and in the other order
`insert(P:b)` returns and a following `insert(P*a)` panics with the wildcard-conflict
error. -/
theorem C6_wildcard_param_conflict {Handler : Type} (P a b m1 m2 : Str) (H1 H2 : List Handler)
    (hP1 : paramPrefix ∉ P) (hP2 : any ∉ P) (hend : P.getLast? = some slash)
    (_ha : slash ∉ a) (_hb : slash ∉ b) (h1 : H1 ≠ []) (h2 : H2 ≠ []) :
    ((trie.insert (trie.newTrie : trie Handler) (P ++ any :: a) m1 H1).2 = none ∧
      ∃ msg, (trie.insert (trie.insert (trie.newTrie : trie Handler) (P ++ any :: a) m1 H1).1
        (P ++ paramPrefix :: b) m2 H2).2 = some (Panic.wildcardConflict msg)) ∧
    ((trie.insert (trie.newTrie : trie Handler) (P ++ paramPrefix :: b) m1 H1).2 = none ∧
      ∃ msg, (trie.insert (trie.insert (trie.newTrie : trie Handler) (P ++ paramPrefix :: b) m1 H1).1
        (P ++ any :: a) m2 H2).2 = some (Panic.wildcardConflict msg)) := by
  obtain ⟨P0, rfl⟩ : ∃ P0, P = P0 ++ [slash] := by
    rcases List.eq_nil_or_concat P with rfl | ⟨P0, c, rfl⟩
    · simp at hend
    · simp at hend
      exact ⟨P0, by rw [hend, List.concat_eq_append]⟩
  have hp1 : paramPrefix ∉ P0 := fun h => hP1 (List.mem_append_left _ h)
  have hp2 : any ∉ P0 := fun h => hP2 (List.mem_append_left _ h)
  refine ⟨⟨insert_newTrie_ok _ _ _ h1, ?_⟩, ⟨insert_newTrie_ok _ _ _ h1, ?_⟩⟩
  · rw [insert_of_ne_nil _ _ _ _ h1, insert_of_ne_nil _ _ _ _ h2]
    have := insertLoop_conflict (P0 ++ [slash] ++ any :: a) m1 H1
      (P0 ++ [slash] ++ paramPrefix :: b) m2 H2 any paramPrefix a b (Or.inl rfl)
      P0 [] [] hp1 hp2 (by simp) (by simp)
    simpa using this
  · rw [insert_of_ne_nil _ _ _ _ h1, insert_of_ne_nil _ _ _ _ h2]
    have := insertLoop_conflict (P0 ++ [slash] ++ paramPrefix :: b) m1 H1
      (P0 ++ [slash] ++ any :: a) m2 H2 paramPrefix any b a (Or.inr rfl)
      P0 [] [] hp1 hp2 (by simp) (by simp)
    simpa using this

/-- C6 at `/static/*file` and `/static/:name`, in both orders. -/
theorem C6_wildcard_param_conflict_witness :
    (∃ msg, (trie.insert (trie.insert (trie.newTrie : trie Nat)
        ("/static/".toList ++ any :: "file".toList) "GET".toList [1]).1
        ("/static/".toList ++ paramPrefix :: "name".toList) "GET".toList [2]).2
          = some (Panic.wildcardConflict msg)) ∧
    (∃ msg, (trie.insert (trie.insert (trie.newTrie : trie Nat)
        ("/static/".toList ++ paramPrefix :: "name".toList) "GET".toList [1]).1
        ("/static/".toList ++ any :: "file".toList) "GET".toList [2]).2
          = some (Panic.wildcardConflict msg)) :=
  ⟨(C6_wildcard_param_conflict "/static/".toList "file".toList "name".toList "GET".toList
      "GET".toList [1] [2] (by decide) (by decide) (by decide) (by decide) (by decide)
      (by decide) (by decide)).1.2,
   (C6_wildcard_param_conflict "/static/".toList "file".toList "name".toList "GET".toList
      "GET".toList [1] [2] (by decide) (by decide) (by decide) (by decide) (by decide)
      (by decide) (by decide)).2.2⟩

section Strings

theorem isPrefixOf_slash (c : Char) (s : Str) :
    List.isPrefixOf [slash] (c :: s) = decide (slash = c) := by
  simp only [List.isPrefixOf, Bool.and_true]
  rfl

theorem strIndex_slash_none (s : Str) (h : slash ∉ s) : strIndex s [slash] = none := by
  induction s with
  | nil => simp [strIndex]
  | cons c s ih =>
    have h1 : ¬ slash = c := fun e => h (by simp [e])
    have h2 : slash ∉ s := fun e => h (List.mem_cons_of_mem _ e)
    simp [strIndex, isPrefixOf_slash, h1, ih h2]

theorem strIndex_slash_some (s : Str) (h : slash ∈ s) :
    ∃ k, strIndex s [slash] = some k ∧ slash ∈ s.drop k := by
  induction s with
  | nil => simp at h
  | cons c s ih =>
    by_cases h1 : slash = c
    · exact ⟨0, by simp [strIndex, isPrefixOf_slash, h1], by simp [h1]⟩
    · have h2 : slash ∈ s := by
        rcases List.mem_cons.mp h with h3 | h3
        · exact absurd h3 h1
        · exact h3
      obtain ⟨k, hk1, hk2⟩ := ih h2
      exact ⟨k + 1, by simp [strIndex, isPrefixOf_slash, h1, hk1], by simpa using hk2⟩

theorem strIndex_le (sub : Str) : ∀ (s : Str) (j : Nat), strIndex s sub = some j → j ≤ s.length := by
  intro s
  induction s with
  | nil =>
    intro j h
    simp only [strIndex] at h
    split_ifs at h
    cases h; simp
  | cons c s ih =>
    intro j h
    simp only [strIndex] at h
    split_ifs at h
    · cases h; simp
    · cases hs : strIndex s sub with
      | none => simp [hs] at h
      | some i =>
        simp [hs] at h
        have := ih i hs
        simp only [List.length_cons]
        omega

theorem suffixLoop_le (tempPath : Str) (l : List Str) (j : Nat)
    (h : trie.suffixLoop tempPath l = some j) : j ≤ tempPath.length := by
  induction l with
  | nil => simp [trie.suffixLoop] at h
  | cons s l ih =>
    simp only [trie.suffixLoop] at h
    cases hs : strIndex tempPath s with
    | some i =>
      rw [hs] at h
      cases h
      exact strIndex_le s tempPath _ hs
    | none =>
      rw [hs] at h
      exact ih h

theorem mem_drop_of_le (a : Char) (l : Str) (j k : Nat) (hjk : j ≤ k) (h : a ∈ l.drop k) :
    a ∈ l.drop j := by
  have e : l.drop k = (l.drop j).drop (k - j) := by
    rw [List.drop_drop]; congr 1; omega
  rw [e] at h
  exact List.mem_of_mem_drop h

end Strings

section Fallback

variable {Handler : Type}

/-- The rewritten path of the `*` branch keeps everything from the first `/` on. -/
theorem anyRewrite_slash (t : trie Handler) (r : Str) (h : slash ∈ r) :
    ∃ u, trie.anyRewrite t r = any :: u ∧ slash ∈ u := by
  obtain ⟨k, hk1, hk2⟩ := strIndex_slash_some r h
  unfold trie.anyRewrite
  simp only [hk1]
  split
  · rename_i x0 i0 hi
    refine ⟨_, rfl, mem_drop_of_le slash r i0 k ?_ hk2⟩
    split_ifs at hi
    · exact le_trans (suffixLoop_le _ _ _ hi) (by simp)
  · exact ⟨_, rfl, hk2⟩

theorem matchFuel_param (f : Nat) (t n : trie Handler) (path method rem : Str)
    (p : List (Str × Str)) (hs : List Handler)
    (h : trie.matchLoop ((len path : Int) - 1) path 0 t false [] = (n, rem, false, hs))
    (h1 : (n.child paramPrefix).isSome = true) (h2 : n.paramName method ≠ empty) :
    trie.matchFuel (f + 1) t path method p =
      trie.matchFuel f n (trie.paramRewrite (n.paramName method) rem).2 method
        (mapSet p (n.paramName method) (trie.paramRewrite (n.paramName method) rem).1) := by
  rw [trie.matchFuel, h]
  simp [h1, h2]

theorem matchFuel_any (f : Nat) (t n : trie Handler) (path method rem : Str)
    (p : List (Str × Str)) (hs : List Handler)
    (h : trie.matchLoop ((len path : Int) - 1) path 0 t false [] = (n, rem, false, hs))
    (h1 : n.child paramPrefix = none) (h2 : (n.child any).isSome = true) :
    trie.matchFuel (f + 1) t path method p =
      trie.matchFuel f n (trie.anyRewrite n rem) method p := by
  rw [trie.matchFuel, h]
  simp [h1, h2]

theorem matchFuel_of_endAt (f : Nat) (t : trie Handler) (path method : Str)
    (p : List (Str × Str)) (hs : List Handler) (he : endAt t path = some hs)
    (h1 : endsSingle path = true) :
    trie.matchFuel (f + 1) t path method p = some (true, hs, p) := by
  unfold endAt at he
  cases hw : walk t path with
  | none => simp [hw] at he
  | some n =>
    rw [hw] at he
    simp only at he
    split_ifs at he with hend
    cases he
    have hL := matchLoop_walk ((len path : Int) - 1) path 0 t n false [] hw (by simp)
    simp only [h1, hend, and_self, if_true] at hL
    exact matchFuel_of_matched f t n path method [] p _ hL

/-- The scan of a path that is not in the trie as a whole stops at the first character
without an edge, reporting no match. -/
theorem matchLoop_stop (t n : trie Handler) (pre rem : Str) (x : Char)
    (hw : walk t pre = some n) (hx : n.child x = none) :
    trie.matchLoop ((len (pre ++ x :: rem) : Int) - 1) (pre ++ x :: rem) 0 t false [] =
      (n, x :: rem, false, []) := by
  have hpos : 0 < len (x :: rem) := len_pos_of_ne_nil _ (by simp)
  rw [matchLoop_through _ pre (x :: rem) 0 t n false [] hw (by rw [len_append]; push_cast; omega)]
  exact matchLoop_cons_none _ _ _ _ _ _ _ hx

end Fallback

section Sole

variable {Handler : Type}

/-- The nodes of the trie of a sole route lie on that route. -/
theorem walk_sole (route method : Str) (hs : List Handler) (q : Str)
    (h : (walk (trie.insert (trie.newTrie : trie Handler) route method hs).1 q).isSome = true) :
    q <+: route := by
  rcases walk_insert _ route method hs q h with h1 | h1
  · cases hw : walk (trie.newTrie : trie Handler) q with
    | none => simp [hw] at h1
    | some n =>
      rw [walk_newTrie q n hw]
      exact List.nil_prefix
  · exact h1

theorem wild_position (name : Str) (c x : Char) (hcn : c ∉ name) :
    ∀ (P pre : Str), c ∉ P → pre ++ [c] <+: P ++ x :: name → pre = P ∧ c = x := by
  intro P
  induction P with
  | nil =>
    intro pre _ h
    cases pre with
    | nil =>
      simp only [List.nil_append] at h
      exact ⟨rfl, (List.cons_prefix_cons.mp h).1⟩
    | cons y pre =>
      simp only [List.nil_append, List.cons_append] at h
      have h2 := (List.cons_prefix_cons.mp h).2
      exact absurd (h2.subset (by simp)) hcn
  | cons w P ih =>
    intro pre hc h
    cases pre with
    | nil =>
      simp only [List.nil_append, List.cons_append] at h
      have h1 := (List.cons_prefix_cons.mp h).1
      exact absurd (by simp [h1]) hc
    | cons y pre =>
      simp only [List.cons_append] at h
      obtain ⟨h1, h2⟩ := List.cons_prefix_cons.mp h
      obtain ⟨h3, h4⟩ := ih pre (fun e => hc (List.mem_cons_of_mem _ e)) h2
      exact ⟨by rw [h1, h3], h4⟩

/-- In the trie of the sole route `P x name`, where `c` occurs neither in `P` nor in
`name`, only the node at `P` can have a child `c`, and then `c = x`. -/
theorem child_sole (P name method : Str) (hs : List Handler) (x c : Char)
    (hcP : c ∉ P) (hcn : c ∉ name) (pre : Str) (n : trie Handler)
    (hw : walk (trie.insert (trie.newTrie : trie Handler) (P ++ x :: name) method hs).1 pre = some n)
    (hc : (n.child c).isSome = true) : pre = P ∧ c = x := by
  apply wild_position name c x hcn P pre hcP
  apply walk_sole (P ++ x :: name) method hs
  rw [walk_append, hw]
  cases hcc : n.child c with
  | none => simp [hcc] at hc
  | some m => simp [walk_cons, hcc, walk_nil]

theorem child_none_of_isSome_false (n : trie Handler) (c : Char)
    (h : ¬ (n.child c).isSome = true) : n.child c = none := by
  cases hc : n.child c with
  | none => rfl
  | some m => simp [hc] at h

end Sole

/-- C3 (as stated, refuted): with `/files/*path` as the only route, the path
`/files/a/b/c` is not matched. -/
theorem C3_wildcard_does_not_cross_segments :
    (trie.insert (trie.newTrie : trie Nat) "/files/*path".toList "GET".toList [1]).2 = none ∧
    trie.match (trie.insert (trie.newTrie : trie Nat) "/files/*path".toList "GET".toList [1]).1
      "/files/a/b/c".toList "GET".toList [] = some (false, [], []) := by
  decide

/-- C3 (amended): in the trie of the sole route `P*name`, with `P` free of `:` and `*`
and `name` free of `/`, `:` and `*`, no path `P r` whose remainder `r` contains a `/` is
matched: `match` gives `(false, nil)` for every method and leaves `paramsOut` as it was. -/
theorem C3_wildcard_single_segment {Handler : Type} (P name r M method : Str) (H : List Handler)
    (hH : H ≠ []) (hP1 : paramPrefix ∉ P) (hP2 : any ∉ P)
    (hn0 : slash ∉ name) (hn1 : paramPrefix ∉ name) (hn2 : any ∉ name) (hr : slash ∈ r)
    (p : List (Str × Str)) :
    (trie.insert (trie.newTrie : trie Handler) (P ++ any :: name) M H).2 = none ∧
    trie.match (trie.insert (trie.newTrie : trie Handler) (P ++ any :: name) M H).1
      (P ++ r) method p = some (false, [], p) := by
  refine ⟨insert_newTrie_ok _ _ _ hH, ?_⟩
  set T := (trie.insert (trie.newTrie : trie Handler) (P ++ any :: name) M H).1 with hT
  have hcolon : ∀ pre n, walk T pre = some n → n.child paramPrefix = none := by
    intro pre n hw
    apply child_none_of_isSome_false
    intro hc
    exact absurd (child_sole P name M H any paramPrefix hP1 hn1 pre n hw hc).2 (by decide)
  have hstar : ∀ pre n, walk T pre = some n → (n.child any).isSome = true → pre = P := by
    intro pre n hw hc
    exact (child_sole P name M H any any hP2 hn2 pre n hw hc).1
  have hslash : ∀ u, slash ∈ u → ¬ u <+: any :: name := by
    intro u hu hpre
    rcases List.mem_cons.mp (hpre.subset hu) with h1 | h1
    · exact absurd h1 (by decide)
    · exact hn0 h1
  rcases walk_or_stop (P ++ r) T with ⟨n, hn⟩ | ⟨pre, x, rem, n, h1, h2, h3⟩
  · exfalso
    have := walk_sole _ M H (P ++ r) (by rw [← hT, hn]; rfl)
    exact hslash r hr ((List.prefix_append_right_inj P).mp this)
  · have hL := matchLoop_stop T n pre rem x h2 h3
    rw [← h1] at hL
    by_cases hst : (n.child any).isSome = true
    · have hpre := hstar pre n h2 hst
      subst hpre
      have hr2 : r = x :: rem := List.append_cancel_left h1
      have hh : 2 ≤ T.height := by
        cases hc : n.child any with
        | none => simp [hc] at hst
        | some m =>
          have hw2 : walk T (pre ++ [any]) = some m := by
            rw [walk_append, h2]; simp [walk_cons, hc, walk_nil]
          have := height_walk _ T m hw2
          have := height_pos m
          simp at *
          omega
      apply match_of_matchFuel 2 T hh
      rw [matchFuel_any 1 T n (pre ++ r) method (x :: rem) p [] hL (hcolon pre n h2) hst]
      obtain ⟨u, hu1, hu2⟩ := anyRewrite_slash n (x :: rem) (hr2 ▸ hr)
      rw [hu1]
      rcases walk_or_stop (any :: u) n with ⟨n2, hn2⟩ | ⟨pre2, x2, rem2, n2, g1, g2, g3⟩
      · exfalso
        have hw3 : (walk T (pre ++ any :: u)).isSome = true := by
          rw [walk_append, h2]; simp [hn2]
        have := walk_sole _ M H _ (by rw [← hT]; exact hw3)
        have h5 := (List.prefix_append_right_inj pre).mp this
        exact hn0 ((List.cons_prefix_cons.mp h5).2.subset hu2)
      · have hL2 := matchLoop_stop n n2 pre2 rem2 x2 g2 g3
        rw [← g1] at hL2
        have hw4 : walk T (pre ++ pre2) = some n2 := by
          rw [walk_append, h2]; simpa using g2
        refine matchFuel_of_no_fallback 0 n n2 (any :: u) method (x2 :: rem2) p false [] hL2
          (hcolon _ n2 hw4) ?_
        apply child_none_of_isSome_false
        intro hc
        have h6 := hstar _ n2 hw4 hc
        have h7 : pre2 = [] := by simpa using h6
        subst h7
        rw [walk_nil] at g2
        cases g2
        simp only [List.nil_append, List.cons.injEq] at g1
        rw [← g1.1] at g3
        simp [g3] at hst
    · obtain ⟨k, hk⟩ : ∃ k, T.height = k + 1 := ⟨T.height - 1, by have := height_pos T; omega⟩
      unfold trie.match
      rw [hk]
      exact matchFuel_of_no_fallback k T n (P ++ r) method (x :: rem) p false [] hL
        (hcolon pre n h2) (child_none_of_isSome_false n any hst)

/-- C3 (amended) at the route `/files/*path` and the path `/files/a/b/c`. -/
theorem C3_wildcard_single_segment_witness :
    trie.match (trie.insert (trie.newTrie : trie Nat) ("/files/".toList ++ any :: "path".toList)
      "GET".toList [1]).1 ("/files/".toList ++ "a/b/c".toList) "GET".toList []
        = some (false, [], []) :=
  (C3_wildcard_single_segment "/files/".toList "path".toList "a/b/c".toList "GET".toList
    "GET".toList [1] (by decide) (by decide) (by decide) (by decide) (by decide) (by decide)
    (by decide) []).2

section ParamChain

variable {Handler : Type}

/-- Walking the trie of a sole route along a proper prefix of the route. -/
theorem walk_chain (route method : Str) (hs : List Handler) :
    ∀ (P pre tail : Str), tail ≠ [] → route = pre ++ P ++ tail →
      walk (trie.insertLoop route method hs (P ++ tail) (len pre) (trie.newTrie : trie Handler)).1 P
        = some (trie.insertLoop route method hs tail (len (pre ++ P)) trie.newTrie).1 := by
  intro P
  induction P with
  | nil => intro pre tail _ _; simp [walk_nil]
  | cons w P ih =>
    intro pre tail ht hr
    rw [List.cons_append,
      insertLoop_newTrie_cons route method hs pre w (P ++ tail) (by simp [ht]) (by simp [hr])]
    rw [walk_cons]
    simp only [child_setChild, if_true, Option.some_bind]
    rw [ih (pre ++ [w]) tail ht (by simp [hr])]
    simp

theorem paramName_recordParam (t : trie Handler) (method name : Str) (h : slash ∉ name) :
    (trie.recordParam t paramPrefix method name).paramName method = name := by
  simp [trie.recordParam, strIndex_slash_none name h, trie.paramName, mapGet_mapSet]

theorem paramRewrite_segment (name v : Str) (h : slash ∉ v) :
    trie.paramRewrite name v = (v, paramPrefix :: name) := by
  simp [trie.paramRewrite, strIndex_slash_none v h]

end ParamChain

/-- C2 (failing input): `/users/:é` is registered for GET as the only route; the name `é`
is non-empty and free of `/`, `:` and `*`. The registration returns, and `match` on
`/users/42` writes `p[é] = 42` but reports no match and no handlers: the last character
of the route is two bytes long, so its node was never marked terminal. -/
theorem C2_multibyte_name_not_matched :
    (trie.insert (trie.newTrie : trie Nat) ("/users/".toList ++ paramPrefix :: "é".toList)
      "GET".toList [1]).2 = none ∧
    trie.match (trie.insert (trie.newTrie : trie Nat)
      ("/users/".toList ++ paramPrefix :: "é".toList) "GET".toList [1]).1
      ("/users/".toList ++ "42".toList) "GET".toList [] = some (false, [], [("é".toList, "42".toList)]) := by
  decide

/-- Supporting C2: let `P` be free of `:` and `*`, `name` a non-empty string free of `/`,
`:` and `*` whose last character is one byte long, and `P:name` the only route, registered
under `M` with handlers `H`. For every non-empty `v` without `/` that does not start with
`:`, `match(P v, M, p)` gives `(true, H)` and afterwards `p[name] = v`. -/
theorem C2_param_capture {Handler : Type} (P name v M : Str) (H : List Handler) (hH : H ≠ [])
    (_hP1 : paramPrefix ∉ P) (_hP2 : any ∉ P)
    (hn : name ≠ []) (hn0 : slash ∉ name) (_hn1 : paramPrefix ∉ name) (_hn2 : any ∉ name)
    (hes : endsSingle name = true)
    (hv : v ≠ []) (hv0 : slash ∉ v) (hv1 : v.head? ≠ some paramPrefix)
    (p : List (Str × Str)) :
    (trie.insert (trie.newTrie : trie Handler) (P ++ paramPrefix :: name) M H).2 = none ∧
    trie.match (trie.insert (trie.newTrie : trie Handler) (P ++ paramPrefix :: name) M H).1
      (P ++ v) M p = some (true, H, mapSet p name v) ∧
    mapGet (mapSet p name v) name = some v := by
  refine ⟨insert_newTrie_ok _ _ _ hH, ?_, by simp [mapGet_mapSet]⟩
  rw [insert_of_ne_nil _ _ _ _ hH]
  set route := P ++ paramPrefix :: name with hroute
  set T := (trie.insertLoop route M H route 0 (trie.newTrie : trie Handler)).1 with hT
  have hwalk := walk_chain route M H P [] (paramPrefix :: name) (by simp) (by simp [hroute])
  simp only [List.nil_append, len_nil] at hwalk
  rw [← hroute, ← hT] at hwalk
  set N := (trie.insertLoop route M H (paramPrefix :: name) (len P)
    (trie.newTrie : trie Handler)).1 with hN
  have hNeq := insertLoop_newTrie_cons route M H P paramPrefix name hn hroute
  rw [← hN] at hNeq
  have hchild : ∀ x, N.child x = if paramPrefix = x then
      some (trie.insertLoop route M H name (len (P ++ [paramPrefix])) trie.newTrie).1 else none := by
    intro x; rw [hNeq]; by_cases hx : paramPrefix = x <;> simp [hx]
  have hname : N.paramName M = name := by
    rw [hNeq, paramName_setChild]
    have : trie.recordSuffix ((trie.newTrie : trie Handler).setChild paramPrefix trie.newTrie)
        paramPrefix name = (trie.newTrie : trie Handler).setChild paramPrefix trie.newTrie := by
      simp [trie.recordSuffix, show ¬ paramPrefix = any by decide]
    rw [this]
    exact paramName_recordParam _ M name hn0
  have hend : endAt N (paramPrefix :: name) = some H := by
    have := endAt_insertLoop route M H (paramPrefix :: name) (len P) trie.newTrie N
      (by rw [hroute, len_append]) (Prod.ext rfl (insertLoop_fresh route M H _ _ _ rfl))
      (paramPrefix :: name)
    rw [this]
    have h1 : endsSingle (paramPrefix :: name) = true := by
      rw [endsSingle_cons_of_ne_nil _ _ hn]
      exact hes
    simp [h1]
  have h1 : endsSingle (paramPrefix :: name) = true := by
    rw [endsSingle_cons_of_ne_nil _ _ hn]
    exact hes
  obtain ⟨v0, v1, rfl⟩ : ∃ v0 v1, v = v0 :: v1 := by
    cases v with
    | nil => exact absurd rfl hv
    | cons a b => exact ⟨a, b, rfl⟩
  have hv0c : N.child v0 = none := by
    rw [hchild]
    have : ¬ paramPrefix = v0 := fun e => hv1 (by simp [e])
    simp [this]
  have hL := matchLoop_stop T N P v1 v0 hwalk hv0c
  have hh : 2 ≤ T.height := by
    have e1 := height_walk _ T N hwalk
    have e2 := height_child N (trie.insertLoop route M H name (len (P ++ [paramPrefix]))
      (trie.newTrie : trie Handler)).1 paramPrefix (by rw [hchild]; simp)
    have e3 := height_pos (trie.insertLoop route M H name (len (P ++ [paramPrefix]))
      (trie.newTrie : trie Handler)).1
    omega
  apply match_of_matchFuel 2 T hh
  rw [matchFuel_param 1 T N (P ++ v0 :: v1) M (v0 :: v1) p [] hL (by rw [hchild]; simp)
    (by rw [hname]; exact hn)]
  rw [hname, paramRewrite_segment name (v0 :: v1) hv0]
  exact matchFuel_of_endAt 0 N (paramPrefix :: name) M _ H hend h1

/-- Supporting C2 at the route `/users/:id` and the path `/users/42`. -/
theorem C2_param_capture_witness :
    trie.match (trie.insert (trie.newTrie : trie Nat)
      ("/users/".toList ++ paramPrefix :: "id".toList) "GET".toList [1]).1
      ("/users/".toList ++ "42".toList) "GET".toList [] = some (true, [1], mapSet [] "id".toList "42".toList) ∧
    mapGet (mapSet ([] : List (Str × Str)) "id".toList "42".toList) "id".toList = some "42".toList :=
  (C2_param_capture "/users/".toList "id".toList "42".toList "GET".toList [1] (by decide)
    (by decide) (by decide) (by decide) (by decide) (by decide) (by decide)
    (by decide) (by decide) (by decide) (by decide) []).2

/-! ## Termination and determinism of `match` -/

section Total

variable {Handler : Type}

/-- The scan ends at a node of the trie, below the start when the first character of the
path has an edge. -/
theorem matchLoop_shape (t : trie Handler) (path : Str) :
    ∃ pre rem n mt hs, walk t pre = some n ∧
      trie.matchLoop ((len path : Int) - 1) path 0 t false [] = (n, rem, mt, hs) ∧
      (∀ c q, path = c :: q → (t.child c).isSome = true → pre ≠ []) := by
  rcases walk_or_stop path t with ⟨n, hn⟩ | ⟨pre, x, rem, n, h1, h2, h3⟩
  · refine ⟨path, [], n, _, _, hn,
      matchLoop_walk ((len path : Int) - 1) path 0 t n false [] hn (by simp), ?_⟩
    intro c q hq _
    simp [hq]
  · refine ⟨pre, x :: rem, n, false, [], h2, ?_, ?_⟩
    · rw [h1]; exact matchLoop_stop t n pre rem x h2 h3
    · intro c q hq hc hpre
      subst hpre
      rw [walk_nil] at h2
      cases h2
      simp only [List.nil_append] at h1
      rw [hq] at h1
      cases h1
      simp [h3] at hc

theorem paramRewrite_head (name rem : Str) :
    ∃ q, (trie.paramRewrite name rem).2 = paramPrefix :: q := by
  unfold trie.paramRewrite
  split <;> exact ⟨_, rfl⟩

theorem anyRewrite_head (t : trie Handler) (rem : Str) :
    ∃ q, trie.anyRewrite t rem = any :: q := by
  unfold trie.anyRewrite
  simp only
  split
  · exact ⟨_, rfl⟩
  · split <;> exact ⟨_, rfl⟩

theorem height_of_child_isSome (n : trie Handler) (c : Char) (h : (n.child c).isSome = true) :
    2 ≤ n.height := by
  cases hc : n.child c with
  | none => simp [hc] at h
  | some m =>
    have h1 := height_child n m c hc
    have h2 := height_pos m
    omega

/-- A call whose path starts with an edge of its node returns when the fuel is at least
the height of the node less one. -/
theorem matchFuel_descending : ∀ (f : Nat) (n : trie Handler) (path method : Str)
    (p : List (Str × Str)), 1 ≤ f → n.height ≤ f + 1 →
    (∃ c q, path = c :: q ∧ (n.child c).isSome = true) →
    ∃ r, trie.matchFuel f n path method p = some r := by
  intro f
  induction f with
  | zero => intro n path method p h; omega
  | succ f ih =>
    intro n path method p _ hh ⟨c, q, hq, hc⟩
    obtain ⟨pre, rem, n1, mt, hs, hw, hL, hpre⟩ := matchLoop_shape n path
    have hpre1 : 1 ≤ pre.length := by
      have := hpre c q hq hc
      cases pre with
      | nil => exact absurd rfl this
      | cons a b => simp
    have hh1 := height_walk pre n n1 hw
    rw [trie.matchFuel, hL]
    simp only
    split_ifs with h1 h2
    · simp only [Bool.and_eq_true, Bool.not_eq_true', decide_eq_true_eq] at h1
      have h3 := height_of_child_isSome n1 _ h1.1.2
      obtain ⟨q1, hq1⟩ := paramRewrite_head (n1.paramName method) rem
      exact ih n1 _ method _ (by omega) (by omega) ⟨paramPrefix, q1, hq1, h1.1.2⟩
    · simp only [Bool.and_eq_true, Bool.not_eq_true'] at h2
      have h3 := height_of_child_isSome n1 _ h2.2
      obtain ⟨q1, hq1⟩ := anyRewrite_head n1 rem
      exact ih n1 _ method _ (by omega) (by omega) ⟨any, q1, hq1, h2.2⟩
    · exact ⟨_, rfl⟩

/-- With the height of the trie as fuel `match` returns. -/
theorem match_total (t : trie Handler) (path method : Str) (p : List (Str × Str)) :
    ∃ r, trie.match t path method p = some r := by
  obtain ⟨k, hk⟩ : ∃ k, t.height = k + 1 := ⟨t.height - 1, by have := height_pos t; omega⟩
  obtain ⟨pre, rem, n1, mt, hs, hw, hL, _⟩ := matchLoop_shape t path
  have hh1 := height_walk pre t n1 hw
  unfold trie.match
  rw [hk, trie.matchFuel, hL]
  simp only
  split_ifs with h1 h2
  · simp only [Bool.and_eq_true, Bool.not_eq_true', decide_eq_true_eq] at h1
    have h3 := height_of_child_isSome n1 _ h1.1.2
    obtain ⟨q1, hq1⟩ := paramRewrite_head (n1.paramName method) rem
    exact matchFuel_descending k n1 _ method _ (by omega) (by omega) ⟨paramPrefix, q1, hq1, h1.1.2⟩
  · simp only [Bool.and_eq_true, Bool.not_eq_true'] at h2
    have h3 := height_of_child_isSome n1 _ h2.2
    obtain ⟨q1, hq1⟩ := anyRewrite_head n1 rem
    exact matchFuel_descending k n1 _ method _ (by omega) (by omega) ⟨any, q1, hq1, h2.2⟩
  · exact ⟨_, rfl⟩

/-- The `(matched, handlers)` part of the result does not depend on the map passed in. -/
theorem matchFuel_params_irrelevant : ∀ (f : Nat) (t : trie Handler) (path method : Str)
    (p q : List (Str × Str)),
    (trie.matchFuel f t path method p).map (fun r => (r.1, r.2.1)) =
      (trie.matchFuel f t path method q).map (fun r => (r.1, r.2.1)) := by
  intro f
  induction f with
  | zero => intro t path method p q; rfl
  | succ f ih =>
    intro t path method p q
    rw [trie.matchFuel, trie.matchFuel]
    rcases trie.matchLoop ((len path : Int) - 1) path 0 t false [] with ⟨t1, rem, mt, hs⟩
    simp only
    split_ifs
    · exact ih _ _ _ _ _
    · exact ih _ _ _ _ _
    · rfl

end Total

/-- C12: for every trie, path, method and map `match` returns a result, and it does so
with any bound on the nesting of its recursive calls that is at least the height of the
trie; the path of every recursive call starts with `:` (parameter branch) or `*`
(wildcard branch), the edge whose presence at the node of the call is the condition of
that branch. -/
theorem C12_match_terminates {Handler : Type} (t : trie Handler) (path method : Str)
    (p : List (Str × Str)) :
    (∃ r, trie.match t path method p = some r ∧
      ∀ f, t.height ≤ f → trie.matchFuel f t path method p = some r) ∧
    (∀ name rem : Str, ∃ q, (trie.paramRewrite name rem).2 = paramPrefix :: q) ∧
    (∀ (n : trie Handler) (rem : Str), ∃ q, trie.anyRewrite n rem = any :: q) := by
  refine ⟨?_, paramRewrite_head, anyRewrite_head⟩
  obtain ⟨r, hr⟩ := match_total t path method p
  exact ⟨r, hr, fun f hf => matchFuel_mono t.height f hf t path method p r hr⟩

/-- C11: `match` takes the trie as a value and has no assignment to a field of a node;
for every trie, path and method, two calls with any two maps both return, with the same
`(matched, handlers)` pair. -/
theorem C11_match_deterministic {Handler : Type} (t : trie Handler) (path method : Str)
    (p q : List (Str × Str)) :
    ∃ (matched : Bool) (handlers : List Handler) (p1 q1 : List (Str × Str)),
      trie.match t path method p = some (matched, handlers, p1) ∧
      trie.match t path method q = some (matched, handlers, q1) := by
  obtain ⟨⟨m1, h1, p1⟩, hp⟩ := match_total t path method p
  obtain ⟨⟨m2, h2, q1⟩, hq⟩ := match_total t path method q
  have h := matchFuel_params_irrelevant t.height t path method p q
  unfold trie.match at hp hq
  rw [hp, hq] at h
  simp only [Option.map_some', Option.some.injEq, Prod.mk.injEq] at h
  obtain ⟨rfl, rfl⟩ := h
  exact ⟨m1, h1, p1, q1, hp, hq⟩

/-! ## Terminal nodes and handlers -/

section EndInvariant

variable {Handler : Type}

theorem endInv_newTrie : EndInv (trie.newTrie : trie Handler) := by
  intro q n h
  have := walk_newTrie q n h
  subst this
  rw [walk_nil] at h
  cases h
  simp

theorem endInv_child (t c : trie Handler) (w : Char) (hc : t.child w = some c)
    (h : EndInv t) : EndInv c := by
  intro q n hq
  apply h (w :: q) n
  simp [walk_cons, hc, hq]

theorem endInv_setEnd (t : trie Handler) (hs : List Handler) (hne : hs ≠ [])
    (h : EndInv t) : EndInv (t.setEnd hs) := by
  intro q n hq
  cases q with
  | nil =>
    rw [walk_nil] at hq
    cases hq
    simp [hne]
  | cons x q =>
    apply h (x :: q) n
    simpa [walk_cons] using hq

theorem endInv_insertLoop (route method : Str) (hs : List Handler) (hne : hs ≠ []) :
    ∀ (rest : Str) (i : Nat) (t : trie Handler), EndInv t →
      EndInv (trie.insertLoop route method hs rest i t).1 := by
  intro rest
  induction rest with
  | nil => intro i t h; exact h
  | cons w r ih =>
    intro i t hinv
    cases hc : t.insertChild route i w with
    | error p =>
      rw [insertLoop_cons_error _ _ _ _ _ _ _ _ hc]
      exact hinv
    | ok c =>
      rw [insertLoop_cons_ok _ _ _ _ _ _ _ _ hc]
      have hinvc : EndInv c := by
        rcases insertChild_ok t c route _ w hc with ⟨_, rfl⟩ | h3
        · exact endInv_newTrie
        · exact endInv_child t c w h3 hinv
      have hinvc1 : EndInv (if (i : Int) = (len route : Int) - 1 then c.setEnd hs else c) := by
        split_ifs
        · exact endInv_setEnd c hs hne hinvc
        · exact hinvc
      have hinvR := ih (i + (encodeRune w).length) _ hinvc1
      intro q n hq
      cases q with
      | nil =>
        rw [walk_nil] at hq
        cases hq
        simpa using hinv [] t rfl
      | cons y q =>
        simp only [walk_cons, child_setChild, child_recordParam, child_recordSuffix] at hq
        by_cases hw : w = y
        · subst hw
          simp only [if_true, Option.some_bind] at hq
          exact hinvR q n hq
        · apply hinv (y :: q) n
          simpa [walk_cons, hw] using hq

theorem endInv_insert (t : trie Handler) (route method : Str) (hs : List Handler)
    (h : EndInv t) : EndInv (trie.insert t route method hs).1 := by
  unfold trie.insert
  split_ifs with h0
  · exact h
  · apply endInv_insertLoop route method hs _ route 0 t h
    intro e; subst e; simp at h0

theorem isEnd_insert (t : trie Handler) (route method : Str) (hs : List Handler) :
    (trie.insert t route method hs).1.isEnd = t.isEnd := by
  unfold trie.insert
  split_ifs
  · rfl
  · exact isEnd_insertLoop _ _ _ _ _ _

theorem endInv_insertEach (regs : List (Registration Handler)) :
    ∀ t : trie Handler, EndInv t → EndInv (insertEach t regs) := by
  induction regs with
  | nil => intro t h; exact h
  | cons r rs ih => intro t h; exact ih _ (endInv_insert t _ _ _ h)

theorem isEnd_insertEach (regs : List (Registration Handler)) :
    ∀ t : trie Handler, (insertEach t regs).isEnd = t.isEnd := by
  induction regs with
  | nil => intro t; rfl
  | cons r rs ih => intro t; rw [insertEach, ih, isEnd_insert]

end EndInvariant

/-- C18: in the trie reached from the empty trie by any sequence of `insert` calls,
returning or panicking, every node is terminal exactly when its handler list is not
empty, and the root is not terminal; `insert` of the empty route with handlers returns
and leaves the trie it is called on as it was. -/
theorem C18_terminal_iff_handlers {Handler : Type} (regs : List (Registration Handler)) :
    (∀ q n, walk (insertEach (trie.newTrie : trie Handler) regs) q = some n →
      (n.isEnd = true ↔ n.handlers ≠ [])) ∧
    (insertEach (trie.newTrie : trie Handler) regs).isEnd = false ∧
    (∀ (M : Str) (H : List Handler), H ≠ [] →
      trie.insert (insertEach (trie.newTrie : trie Handler) regs) [] M H
        = (insertEach (trie.newTrie : trie Handler) regs, none)) := by
  refine ⟨endInv_insertEach regs _ endInv_newTrie, ?_, ?_⟩
  · rw [isEnd_insertEach]; rfl
  · intro M H hH
    rw [insert_of_ne_nil _ _ _ _ hH]
    rfl

/-- C19: with `/users/:id/posts` as the only route, registered for GET, `match` of
`/users/42/x` for GET gives `(false, nil)` and leaves `id = 42` in the map, which was
empty before. -/
theorem C19_params_written_without_match :
    ∃ t : trie Nat,
      insertAll trie.newTrie [⟨"/users/:id/posts".toList, "GET".toList, [1]⟩] = some t ∧
      trie.match t "/users/42/x".toList "GET".toList []
        = some (false, [], [("id".toList, "42".toList)]) :=
  ⟨_, rfl, by decide⟩

/-! ## The message of the wildcard-conflict error -/

section Message

variable {Handler : Type}

theorem checkConflictWildcard_message (t : trie Handler) (route : Str) (i : Nat)
    (msg : List Nat) (h : t.checkConflictWildcard route i = .ok (some msg)) :
    i + 1 ≤ len route ∧ ∃ k, indexByte 0x2F (bytes route) = some k ∧
      msg = conflictMessage (segmentBytes ((bytes route).drop (i + 1)))
        ((bytes route).take k) ((bytes route).drop k) := by
  unfold trie.checkConflictWildcard at h
  simp only at h
  split_ifs at h with h0
  refine ⟨by omega, ?_⟩
  split at h
  · cases h
  · rename_i b bs hb
    split at h
    · cases h
    · split_ifs at h
      · split at h
        · cases h
        · rename_i k hk
          refine ⟨k, hk, ?_⟩
          simp only [Except.ok.injEq, Option.some.injEq] at h
          rw [← h, hb]
          rfl
      · cases h

theorem checkConflictWildcard_no_conflict_panic (t : trie Handler) (route : Str) (i : Nat)
    (msg : List Nat) : t.checkConflictWildcard route i ≠ .error (Panic.wildcardConflict msg) := by
  intro h
  unfold trie.checkConflictWildcard at h
  simp only at h
  split_ifs at h
  · cases h
  · split at h
    · cases h
    · split at h
      · cases h
      · split_ifs at h
        all_goals first | cases h | (split at h <;> cases h)

theorem insertChild_conflict (t : trie Handler) (route : Str) (i : Nat) (w : Char)
    (msg : List Nat) (h : t.insertChild route i w = .error (Panic.wildcardConflict msg)) :
    t.checkConflictWildcard route i = .ok (some msg) := by
  unfold trie.insertChild at h
  split at h
  · cases h
  · split at h
    · cases h
    · split_ifs at h
      cases hc : t.checkConflictWildcard route i with
      | error p =>
        rw [hc] at h
        simp only [Except.error.injEq] at h
        subst h
        exact absurd hc (checkConflictWildcard_no_conflict_panic t route i msg)
      | ok o =>
        cases o with
        | none => rw [hc] at h; cases h
        | some m =>
          rw [hc] at h
          simp only [Except.error.injEq, Panic.wildcardConflict.injEq] at h
          rw [h]

theorem insertLoop_conflict_message (route method : Str) (hs : List Handler) :
    ∀ (rest : Str) (i : Nat) (t : trie Handler) (msg : List Nat),
      (trie.insertLoop route method hs rest i t).2 = some (Panic.wildcardConflict msg) →
      ∃ j, t.checkConflictWildcard route j = .ok (some msg) ∨
        ∃ n : trie Handler, n.checkConflictWildcard route j = .ok (some msg) := by
  intro rest
  induction rest with
  | nil => intro i t msg h; simp [insertLoop_nil] at h
  | cons w r ih =>
    intro i t msg h
    cases hc : t.insertChild route i w with
    | error p =>
      rw [insertLoop_cons_error _ _ _ _ _ _ _ _ hc] at h
      simp only [Option.some.injEq] at h
      subst h
      exact ⟨i, Or.inl (insertChild_conflict t route i w msg hc)⟩
    | ok c =>
      rw [insertLoop_cons_ok _ _ _ _ _ _ _ _ hc] at h
      obtain ⟨j, hj⟩ := ih _ _ msg h
      rcases hj with hj | ⟨n, hn⟩
      · exact ⟨j, Or.inr ⟨_, hj⟩⟩
      · exact ⟨j, Or.inr ⟨n, hn⟩⟩

end Message

/-- C13 (failing input): after `/static/*file`, registering `/static/:name` for GET panics
with a message that has nothing where the method is expected and does not contain `GET`.
Registering `/static/abc` for GET instead panics with a message that names the static
word `abc` as the wildcard and contains neither `GET` nor any `*` or `:`, so no wildcard
token. After `/a/:x` and `/ab/c`, registering `/ab/d` for GET panics with a message that
names the empty word. -/
theorem C13_message_without_method :
    (trie.insert (trie.insert (trie.newTrie : trie Nat) "/static/*file".toList "GET".toList [1]).1
        "/static/:name".toList "GET".toList [2]).2
      = some (Panic.wildcardConflict (bytes
          "wildcard ':name' in route ('/static/:name') conflicts with existing prefix in trie".toList)) ∧
    ¬ (bytes "GET".toList <:+: bytes
          "wildcard ':name' in route ('/static/:name') conflicts with existing prefix in trie".toList) ∧
    (trie.insert (trie.insert (trie.newTrie : trie Nat) "/static/*file".toList "GET".toList [1]).1
        "/static/abc".toList "GET".toList [2]).2
      = some (Panic.wildcardConflict (bytes
          "wildcard 'abc' in route ('/static/abc') conflicts with existing prefix in trie".toList)) ∧
    ¬ (bytes "GET".toList <:+: bytes
          "wildcard 'abc' in route ('/static/abc') conflicts with existing prefix in trie".toList) ∧
    ¬ (bytes "*".toList <:+: bytes
          "wildcard 'abc' in route ('/static/abc') conflicts with existing prefix in trie".toList) ∧
    ¬ (bytes ":".toList <:+: bytes
          "wildcard 'abc' in route ('/static/abc') conflicts with existing prefix in trie".toList) ∧
    (trie.insert (trie.insert (trie.newTrie : trie Nat) "/a/:x".toList "GET".toList [1]).1
        "/ab/c".toList "GET".toList [2]).2 = none ∧
    (trie.insert (trie.insert (trie.insert (trie.newTrie : trie Nat) "/a/:x".toList "GET".toList [1]).1
        "/ab/c".toList "GET".toList [2]).1 "/ab/d".toList "GET".toList [3]).2
      = some (Panic.wildcardConflict (bytes
          "wildcard '' in route ('/ab/d') conflicts with existing prefix in trie".toList)) := by
  refine ⟨?_, ?_, ?_, ?_, ?_, ?_, ?_, ?_⟩
  · rfl
  · intro h
    have h1 : (0x47 : Nat) ∈ bytes
        "wildcard ':name' in route ('/static/:name') conflicts with existing prefix in trie".toList :=
      h.subset (by decide)
    revert h1
    decide
  · rfl
  · intro h
    have h1 : (0x47 : Nat) ∈ bytes
        "wildcard 'abc' in route ('/static/abc') conflicts with existing prefix in trie".toList :=
      h.subset (by decide)
    revert h1
    decide
  · intro h
    have h1 : (0x2A : Nat) ∈ bytes
        "wildcard 'abc' in route ('/static/abc') conflicts with existing prefix in trie".toList :=
      h.subset (by decide)
    revert h1
    decide
  · intro h
    have h1 : (0x3A : Nat) ∈ bytes
        "wildcard 'abc' in route ('/static/abc') conflicts with existing prefix in trie".toList :=
      h.subset (by decide)
    revert h1
    decide
  · rfl
  · rfl

/-- Supporting C13: whenever `insert(route, method, handlers)` panics with the
wildcard-conflict error, there are an index `i` of the route and the index `k` of its
first `/` such that the message is made of three pieces of `route`: the bytes from `i + 1`
up to the next `/` (printed as the wildcard), the bytes before `k` (printed where the
method is expected) and the bytes from `k` on (the pattern); each of them occurs in the
message, and the `method` argument is not used. -/
theorem C13_conflict_message {Handler : Type} (t : trie Handler) (route method : Str)
    (hs : List Handler) (msg : List Nat)
    (h : (trie.insert t route method hs).2 = some (Panic.wildcardConflict msg)) :
    ∃ i k, i + 1 ≤ len route ∧ indexByte 0x2F (bytes route) = some k ∧
      msg = conflictMessage (segmentBytes ((bytes route).drop (i + 1)))
        ((bytes route).take k) ((bytes route).drop k) ∧
      segmentBytes ((bytes route).drop (i + 1)) <:+: msg ∧
      (bytes route).take k <:+: msg ∧ (bytes route).drop k <:+: msg := by
  unfold trie.insert at h
  split_ifs at h
  · cases h
  · obtain ⟨j, hj⟩ := insertLoop_conflict_message route method hs route 0 t msg h
    have key : ∀ n : trie Handler, n.checkConflictWildcard route j = .ok (some msg) →
        ∃ i k, i + 1 ≤ len route ∧ indexByte 0x2F (bytes route) = some k ∧
          msg = conflictMessage (segmentBytes ((bytes route).drop (i + 1)))
            ((bytes route).take k) ((bytes route).drop k) ∧
          segmentBytes ((bytes route).drop (i + 1)) <:+: msg ∧
          (bytes route).take k <:+: msg ∧ (bytes route).drop k <:+: msg := by
      intro n hn
      obtain ⟨h1, k, hk, hm⟩ := checkConflictWildcard_message n route j msg hn
      refine ⟨j, k, h1, hk, hm, ?_, ?_, ?_⟩
      · rw [hm]; exact ⟨_, _, by simp only [conflictMessage, List.append_assoc]; rfl⟩
      · rw [hm]
        exact ⟨bytes "wildcard '".toList ++ segmentBytes ((bytes route).drop (j + 1)) ++
          bytes "' in route ".toList, _, by simp only [conflictMessage, List.append_assoc]; rfl⟩
      · rw [hm]
        exact ⟨bytes "wildcard '".toList ++ segmentBytes ((bytes route).drop (j + 1)) ++
          bytes "' in route ".toList ++ (bytes route).take k ++ bytes "('".toList,
          bytes "') conflicts with existing prefix in trie".toList,
          by simp only [conflictMessage, List.append_assoc]⟩
    rcases hj with hj | ⟨n, hn⟩
    · exact key t hj
    · exact key n hn

/-- Supporting C13 at `/static/:name` for GET after `/static/*file`. -/
theorem C13_conflict_message_witness :
    ∃ i k, i + 1 ≤ len "/static/:name".toList ∧
      indexByte 0x2F (bytes "/static/:name".toList) = some k ∧
      bytes "wildcard ':name' in route ('/static/:name') conflicts with existing prefix in trie".toList
        = conflictMessage (segmentBytes ((bytes "/static/:name".toList).drop (i + 1)))
          ((bytes "/static/:name".toList).take k) ((bytes "/static/:name".toList).drop k) :=
  let ⟨i, k, h1, h2, h3, _⟩ := C13_conflict_message
    (trie.insert (trie.newTrie : trie Nat) "/static/*file".toList "GET".toList [1]).1
    "/static/:name".toList "GET".toList [2]
    (bytes "wildcard ':name' in route ('/static/:name') conflicts with existing prefix in trie".toList)
    (by decide)
  ⟨i, k, h1, h2, h3⟩

/-! ## The trie of a sole route -/

section SoleNode

variable {Handler : Type}

/-- The scan of `pre ++ rem` stops at the node of `pre` when that node is not terminal
and has no edge for the first character of `rem`. -/
theorem matchLoop_at (t n : trie Handler) (pre rem : Str) (hw : walk t pre = some n)
    (hend : n.isEnd = false) (hc : ∀ c q, rem = c :: q → n.child c = none) :
    trie.matchLoop ((len (pre ++ rem) : Int) - 1) (pre ++ rem) 0 t false [] =
      (n, rem, false, []) := by
  cases rem with
  | nil =>
    rw [List.append_nil,
      matchLoop_walk ((len pre : Int) - 1) pre 0 t n false [] hw (by simp)]
    simp [hend]
  | cons c q => exact matchLoop_stop t n pre q c hw (hc c q rfl)

/-- A scan that stops at a node where neither fallback applies ends the call. -/
theorem matchFuel_of_no_branch (f : Nat) (t n : trie Handler) (path method rem : Str)
    (p : List (Str × Str)) (mt : Bool) (hs : List Handler)
    (h : trie.matchLoop ((len path : Int) - 1) path 0 t false [] = (n, rem, mt, hs))
    (h1 : n.child paramPrefix = none ∨ n.paramName method = empty)
    (h2 : n.child any = none) :
    trie.matchFuel (f + 1) t path method p = some (mt, hs, p) := by
  rw [trie.matchFuel, h]
  rcases h1 with h1 | h1 <;> simp [h1, h2]

/-- The node at `P` in the trie of the sole route `P ++ w :: tail`. -/
theorem sole_walk (P : Str) (w : Char) (tail M : Str) (H : List Handler) (hH : H ≠ []) :
    walk (trie.insert (trie.newTrie : trie Handler) (P ++ w :: tail) M H).1 P =
      some (trie.insertLoop (P ++ w :: tail) M H (w :: tail) (len P) trie.newTrie).1 := by
  rw [insert_of_ne_nil _ _ _ _ hH]
  have := walk_chain (P ++ w :: tail) M H P [] (w :: tail) (by simp) (by simp)
  simpa [len_nil] using this

theorem sole_node_eq (route : Str) (w : Char) (tail M : Str) (H : List Handler) (i : Nat) :
    ∃ X : trie Handler,
      (trie.insertLoop route M H (w :: tail) i (trie.newTrie : trie Handler)).1 =
        (trie.recordParam (trie.recordSuffix ((trie.newTrie : trie Handler).setChild w
          trie.newTrie) w tail) w M tail).setChild w X := by
  rw [insertLoop_cons_ok _ _ _ _ _ _ _ _
    (insertChild_of_child_none _ route i w (child_newTrie w))]
  exact ⟨_, rfl⟩

theorem sole_node_isEnd (route : Str) (w : Char) (tail M : Str) (H : List Handler) (i : Nat) :
    (trie.insertLoop route M H (w :: tail) i (trie.newTrie : trie Handler)).1.isEnd = false := by
  rw [isEnd_insertLoop]; rfl

theorem sole_node_child (route : Str) (w : Char) (tail M : Str) (H : List Handler) (i : Nat)
    (c : Char) :
    (c ≠ w → (trie.insertLoop route M H (w :: tail) i (trie.newTrie : trie Handler)).1.child c
      = none) ∧
    ((trie.insertLoop route M H (w :: tail) i (trie.newTrie : trie Handler)).1.child w).isSome
      = true := by
  obtain ⟨X, hX⟩ := sole_node_eq route w tail M H i
  rw [hX]
  constructor
  · intro hc
    have : ¬ w = c := fun e => hc e.symm
    simp [this]
  · simp

theorem sole_node_endAt (P : Str) (w : Char) (tail M : Str) (H : List Handler) :
    endAt (trie.insertLoop (P ++ w :: tail) M H (w :: tail) (len P) (trie.newTrie : trie Handler)).1
      (w :: tail) = if endsSingle (w :: tail) = true then some H else none := by
  have := endAt_insertLoop (P ++ w :: tail) M H (w :: tail) (len P) trie.newTrie _
    (by rw [len_append]) (Prod.ext rfl (insertLoop_fresh (P ++ w :: tail) M H _ _ _ rfl))
    (w :: tail)
  rw [this]
  simp [endAt_newTrie]

theorem sole_height (P : Str) (w : Char) (tail M : Str) (H : List Handler) (hH : H ≠ []) :
    2 ≤ (trie.insert (trie.newTrie : trie Handler) (P ++ w :: tail) M H).1.height := by
  have h1 := height_walk P _ _ (sole_walk P w tail M H hH)
  have h2 := height_of_child_isSome _ w (sole_node_child (P ++ w :: tail) w tail M H (len P) w).2
  omega

theorem sole_node_paramName (route name M M1 : Str) (H : List Handler) (i : Nat)
    (hn : slash ∉ name) :
    (trie.insertLoop route M H (paramPrefix :: name) i (trie.newTrie : trie Handler)).1.paramName M1
      = if M = M1 then name else empty := by
  obtain ⟨X, hX⟩ := sole_node_eq route paramPrefix name M H i
  rw [hX, paramName_setChild]
  have : trie.recordSuffix ((trie.newTrie : trie Handler).setChild paramPrefix trie.newTrie)
      paramPrefix name = (trie.newTrie : trie Handler).setChild paramPrefix trie.newTrie := by
    simp [trie.recordSuffix, show ¬ paramPrefix = any by decide]
  rw [this]
  simp only [trie.recordParam, if_true, strIndex_slash_none name hn, trie.paramName,
    params_setParam, params_setChild, params_newTrie, mapSet, mapGet]
  split_ifs <;> rfl

end SoleNode

/-- C17: with `P:name` as the only route, registered under `M`, `match(P v, M1, p)` gives
`(false, nil)` and leaves `p` as it was, for every method `M1` other than `M` and every
`v` that does not start with `:`. -/
theorem C17_param_fallback_method_sensitive {Handler : Type} (P name v M M1 : Str)
    (H : List Handler) (hH : H ≠ []) (_hP1 : paramPrefix ∉ P) (_hP2 : any ∉ P)
    (_hn : name ≠ []) (hn0 : slash ∉ name) (hM : M1 ≠ M) (hv : v.head? ≠ some paramPrefix)
    (p : List (Str × Str)) :
    (trie.insert (trie.newTrie : trie Handler) (P ++ paramPrefix :: name) M H).2 = none ∧
    trie.match (trie.insert (trie.newTrie : trie Handler) (P ++ paramPrefix :: name) M H).1
      (P ++ v) M1 p = some (false, [], p) := by
  refine ⟨insert_newTrie_ok _ _ _ hH, ?_⟩
  have hw := sole_walk P paramPrefix name M H hH
  have hL := matchLoop_at _ _ P v hw (sole_node_isEnd _ _ _ _ _ _) (by
    intro c q hq
    apply (sole_node_child _ _ _ _ _ _ c).1
    intro e
    apply hv
    rw [hq, e]; rfl)
  apply match_of_matchFuel 1 _ (by have := sole_height P paramPrefix name M H hH; omega)
  apply matchFuel_of_no_branch 0 _ _ (P ++ v) M1 v p false [] hL
  · right
    rw [sole_node_paramName _ name M M1 H _ hn0]
    have : ¬ M = M1 := fun e => hM e.symm
    simp [this]
  · exact (sole_node_child _ _ _ _ _ _ any).1 (by decide)

/-- C17 at the route `/users/:id` for GET and the path `/users/42` for POST. -/
theorem C17_param_fallback_method_sensitive_witness :
    trie.match (trie.insert (trie.newTrie : trie Nat)
      ("/users/".toList ++ paramPrefix :: "id".toList) "GET".toList [1]).1
      ("/users/".toList ++ "42".toList) "POST".toList [] = some (false, [], []) :=
  (C17_param_fallback_method_sensitive "/users/".toList "id".toList "42".toList "GET".toList
    "POST".toList [1] (by decide) (by decide) (by decide) (by decide) (by decide) (by decide)
    (by decide) []).2

/-- C20 (failing input): `/users/:é` is registered for GET as the only route. The
registration returns, and `match` on `/users/` writes the empty string to `p[é]` but
reports no match and no handlers: the last character of the route is two bytes long, so
its node was never marked terminal. -/
theorem C20_multibyte_name_not_matched :
    (trie.insert (trie.newTrie : trie Nat) ("/users/".toList ++ paramPrefix :: "é".toList)
      "GET".toList [1]).2 = none ∧
    trie.match (trie.insert (trie.newTrie : trie Nat)
      ("/users/".toList ++ paramPrefix :: "é".toList) "GET".toList [1]).1
      "/users/".toList "GET".toList [] = some (false, [], [("é".toList, [])]) := by
  decide

/-- Supporting C20: let `P` be non-empty and free of `:` and `*`, `name` a non-empty string
free of `/`, `:` and `*` whose last character is one byte long, and `P:name` the only
route, registered under `M` with handlers `H`. Then `match(P, M, p)` gives `(true, H)` and
sets `p[name]` to the empty string. -/
theorem C20_empty_segment_param {Handler : Type} (P name M : Str) (H : List Handler)
    (hH : H ≠ []) (_hP0 : P ≠ []) (_hP1 : paramPrefix ∉ P) (_hP2 : any ∉ P)
    (hn : name ≠ []) (hn0 : slash ∉ name) (_hn1 : paramPrefix ∉ name) (_hn2 : any ∉ name)
    (hes : endsSingle name = true) (p : List (Str × Str)) :
    (trie.insert (trie.newTrie : trie Handler) (P ++ paramPrefix :: name) M H).2 = none ∧
    trie.match (trie.insert (trie.newTrie : trie Handler) (P ++ paramPrefix :: name) M H).1
      P M p = some (true, H, mapSet p name []) ∧
    mapGet (mapSet p name []) name = some [] := by
  refine ⟨insert_newTrie_ok _ _ _ hH, ?_, by simp [mapGet_mapSet]⟩
  have hw := sole_walk P paramPrefix name M H hH
  have hL := matchLoop_at _ _ P [] hw (sole_node_isEnd _ _ _ _ _ _) (by intro c q hq; cases hq)
  rw [List.append_nil] at hL
  have hname := sole_node_paramName (P ++ paramPrefix :: name) name M M H (len P) hn0
  simp only [if_true] at hname
  apply match_of_matchFuel 2 _ (sole_height P paramPrefix name M H hH)
  rw [matchFuel_param 1 _ _ P M [] p [] hL (sole_node_child _ _ _ _ _ _ paramPrefix).2
    (by rw [hname]; exact hn)]
  rw [hname, paramRewrite_segment name [] (by simp)]
  apply matchFuel_of_endAt 0 _ (paramPrefix :: name) M _ H
  · rw [sole_node_endAt, (endsSingle_cons_of_ne_nil paramPrefix name hn).trans hes]; rfl
  · exact (endsSingle_cons_of_ne_nil paramPrefix name hn).trans hes

/-- Supporting C20 at the route `/users/:id` and the path `/users/`. -/
theorem C20_empty_segment_param_witness :
    trie.match (trie.insert (trie.newTrie : trie Nat)
      ("/users/".toList ++ paramPrefix :: "id".toList) "GET".toList [1]).1
      "/users/".toList "GET".toList [] = some (true, [1], mapSet [] "id".toList []) ∧
    mapGet (mapSet ([] : List (Str × Str)) "id".toList []) "id".toList = some [] :=
  (C20_empty_segment_param "/users/".toList "id".toList "GET".toList [1] (by decide)
    (by decide) (by decide) (by decide) (by decide) (by decide) (by decide) (by decide)
    (by decide) []).2

/-! ## The wildcard branch of a sole route -/

section Wildcard

variable {Handler : Type}

theorem strIndex_append_slash (x r : Str) (hx : slash ∉ x) :
    strIndex (x ++ slash :: r) [slash] = some x.length := by
  induction x with
  | nil => simp [strIndex, isPrefixOf_slash]
  | cons c x ih =>
    have h1 : ¬ slash = c := fun e => hx (by simp [e])
    have h2 : slash ∉ x := fun e => hx (List.mem_cons_of_mem _ e)
    simp [strIndex, isPrefixOf_slash, h1, ih h2]

/-- An index found by `strings.Index` is the start of an occurrence. -/
theorem strIndex_occ (sub : Str) : ∀ (s : Str) (j : Nat), strIndex s sub = some j →
    j ≤ s.length ∧ ∃ b, s.drop j = sub ++ b := by
  intro s
  induction s with
  | nil =>
    intro j h
    simp only [strIndex] at h
    split_ifs at h with h0
    cases h
    exact ⟨le_refl _, [], by simp [h0]⟩
  | cons c s ih =>
    intro j h
    simp only [strIndex] at h
    split_ifs at h with h0
    · cases h
      obtain ⟨b, hb⟩ := List.isPrefixOf_iff_prefix.mp h0
      exact ⟨by simp, b, by simp [hb]⟩
    · cases hs : strIndex s sub with
      | none => simp [hs] at h
      | some i =>
        simp only [hs, Option.map_some', Option.some.injEq] at h
        subst h
        obtain ⟨h1, b, hb⟩ := ih i hs
        exact ⟨by simp only [List.length_cons]; omega, b, by simpa using hb⟩

/-- A string that occurs is found by `strings.Index`. -/
theorem strIndex_isSome_of_occ (sub b : Str) : ∀ a : Str, ∃ j, strIndex (a ++ sub ++ b) sub = some j := by
  intro a
  induction a with
  | nil =>
    refine ⟨0, ?_⟩
    simp only [List.nil_append]
    cases hsb : sub ++ b with
    | nil =>
      have : sub = [] := (List.append_eq_nil.mp hsb).1
      simp [strIndex, this]
    | cons c s =>
      have : sub.isPrefixOf (c :: s) = true := by
        rw [← hsb]; exact List.isPrefixOf_iff_prefix.mpr (List.prefix_append _ _)
      simp [strIndex, this]
  | cons c a ih =>
    obtain ⟨j, hj⟩ := ih
    simp only [List.cons_append, strIndex]
    split_ifs
    · exact ⟨0, rfl⟩
    · refine ⟨j + 1, ?_⟩
      simp only [List.append_assoc] at hj
      simp [hj]

theorem anyRewrite_no_suffix (n : trie Handler) (rem : Str) (h : n.suffix = []) :
    trie.anyRewrite n rem =
      match strIndex rem [slash] with
      | some k => any :: rem.drop k
      | none => [any] := by
  unfold trie.anyRewrite
  cases hk : strIndex rem [slash] <;> simp [h]

theorem anyRewrite_suffix (n : trie Handler) (rem suf : Str) (j : Nat) (h : n.suffix = [suf])
    (hsl : slash ∉ rem) (hj : strIndex rem suf = some j) :
    trie.anyRewrite n rem = any :: rem.drop j := by
  unfold trie.anyRewrite
  simp [h, strIndex_slash_none rem hsl, trie.suffixLoop, hj]

theorem sole_node_suffix_nil (route tail M : Str) (H : List Handler) (i : Nat)
    (ht : tail = [] ∨ tail.head? = some slash) :
    (trie.insertLoop route M H (any :: tail) i (trie.newTrie : trie Handler)).1.suffix = [] := by
  obtain ⟨X, hX⟩ := sole_node_eq route any tail M H i
  rw [hX]
  simp only [suffix_setChild, suffix_recordParam]
  rcases ht with rfl | ht
  · simp [trie.recordSuffix, strIndex, empty]
  · cases tail with
    | nil => simp at ht
    | cons c r =>
      simp only [List.head?_cons, Option.some.injEq] at ht
      subst ht
      simp [trie.recordSuffix, strIndex, isPrefixOf_slash, empty]

theorem sole_node_suffix_one (route tail M : Str) (H : List Handler) (i : Nat)
    (ht : tail ≠ []) (hs : slash ∉ tail) :
    (trie.insertLoop route M H (any :: tail) i (trie.newTrie : trie Handler)).1.suffix
      = [tail] := by
  obtain ⟨X, hX⟩ := sole_node_eq route any tail M H i
  rw [hX]
  simp [trie.recordSuffix, strIndex_slash_none tail hs, empty, ht]

theorem walk_of_endAt (t : trie Handler) (q : Str) (hs : List Handler)
    (h : endAt t q = some hs) : ∃ n, walk t q = some n := by
  unfold endAt at h
  cases hw : walk t q with
  | none => simp [hw] at h
  | some n => exact ⟨n, rfl⟩

/-- The node at the end of a sole route has no children. -/
theorem sole_leaf (P : Str) (w : Char) (tail M : Str) (H : List Handler) (hH : H ≠ [])
    (E : trie Handler)
    (hE : walk (trie.insertLoop (P ++ w :: tail) M H (w :: tail) (len P)
      (trie.newTrie : trie Handler)).1 (w :: tail) = some E) (c : Char) :
    E.child c = none := by
  apply child_none_of_isSome_false
  intro hc
  have h1 : (walk (trie.insert (trie.newTrie : trie Handler) (P ++ w :: tail) M H).1
      ((P ++ w :: tail) ++ [c])).isSome = true := by
    rw [walk_append, walk_append, sole_walk P w tail M H hH]
    simp only [Option.some_bind, hE]
    cases hcc : E.child c with
    | none => simp [hcc] at hc
    | some m => simp [walk_cons, hcc, walk_nil]
  have h2 := (walk_sole _ M H _ h1).length_le
  simp at h2

end Wildcard

/-- C15 (failing input): `/a/*/é` is registered for GET as the only route. The
registration returns, and `match` on `/a/x/é` reports no match and no handlers: the last
character of the route is two bytes long, so its node was never marked terminal. -/
theorem C15_multibyte_tail_not_matched :
    (trie.insert (trie.newTrie : trie Nat) ("/a/".toList ++ any :: "/é".toList)
      "GET".toList [1]).2 = none ∧
    trie.match (trie.insert (trie.newTrie : trie Nat) ("/a/".toList ++ any :: "/é".toList)
      "GET".toList [1]).1 ("/a/".toList ++ "x".toList ++ "/é".toList) "GET".toList []
        = some (false, [], []) := by
  decide

/-- Supporting C15: let `P` and `Q` be free of `:` and `*`, `Q` empty or starting with
`/`, and `P*Q` the only route, with handlers `H` and a last character that is one byte
long. For every `x` without `/` that does not start with `*`, `match(P x Q, method, p)`
gives `(true, H)` for every method and leaves `p` as it was. -/
theorem C15_wildcard_without_suffix {Handler : Type} (P Q x M method : Str) (H : List Handler)
    (hH : H ≠ []) (_hP1 : paramPrefix ∉ P) (_hP2 : any ∉ P)
    (_hQ1 : paramPrefix ∉ Q) (_hQ2 : any ∉ Q) (hQ : Q = [] ∨ Q.head? = some slash)
    (hes : endsSingle (any :: Q) = true) (hx0 : slash ∉ x) (hx1 : x.head? ≠ some any)
    (p : List (Str × Str)) :
    (trie.insert (trie.newTrie : trie Handler) (P ++ any :: Q) M H).2 = none ∧
    trie.match (trie.insert (trie.newTrie : trie Handler) (P ++ any :: Q) M H).1
      (P ++ x ++ Q) method p = some (true, H, p) := by
  refine ⟨insert_newTrie_ok _ _ _ hH, ?_⟩
  rw [List.append_assoc]
  have hw := sole_walk P any Q M H hH
  have hhead : ∀ c q, x ++ Q = c :: q → c ≠ any := by
    intro c q hq e
    subst e
    cases x with
    | nil =>
      rcases hQ with rfl | hQ
      · simp at hq
      · simp only [List.nil_append] at hq
        rw [hq] at hQ
        simp only [List.head?_cons, Option.some.injEq] at hQ
        exact absurd hQ (by decide)
    | cons a b =>
      simp only [List.cons_append, List.cons.injEq] at hq
      apply hx1
      rw [hq.1]; rfl
  have hL := matchLoop_at _ _ P (x ++ Q) hw (sole_node_isEnd _ _ _ _ _ _)
    (fun c q hq => (sole_node_child _ _ _ _ _ _ c).1 (hhead c q hq))
  apply match_of_matchFuel 2 _ (sole_height P any Q M H hH)
  rw [matchFuel_any 1 _ _ (P ++ (x ++ Q)) method (x ++ Q) p [] hL
    ((sole_node_child _ _ _ _ _ _ paramPrefix).1 (by decide))
    (sole_node_child _ _ _ _ _ _ any).2]
  have hrw : trie.anyRewrite (trie.insertLoop (P ++ any :: Q) M H (any :: Q) (len P)
      (trie.newTrie : trie Handler)).1 (x ++ Q) = any :: Q := by
    rw [anyRewrite_no_suffix _ _ (sole_node_suffix_nil _ Q M H _ hQ)]
    rcases hQ with rfl | hQ
    · simp [strIndex_slash_none x hx0]
    · cases Q with
      | nil => simp at hQ
      | cons c r =>
        simp only [List.head?_cons, Option.some.injEq] at hQ
        subst hQ
        simp [strIndex_append_slash x r hx0]
  rw [hrw]
  apply matchFuel_of_endAt 0 _ (any :: Q) method p H _ hes
  rw [sole_node_endAt, hes]; rfl

/-- Supporting C15 at the route `/a/*/b` and the path `/a/x/b`. -/
theorem C15_wildcard_without_suffix_witness :
    trie.match (trie.insert (trie.newTrie : trie Nat) ("/a/".toList ++ any :: "/b".toList)
      "GET".toList [1]).1 ("/a/".toList ++ "x".toList ++ "/b".toList) "POST".toList []
        = some (true, [1], []) :=
  (C15_wildcard_without_suffix "/a/".toList "/b".toList "x".toList "GET".toList "POST".toList
    [1] (by decide) (by decide) (by decide) (by decide) (by decide) (by decide)
    (by decide) (by decide) (by decide) []).2

/-- C16 (failing input): `/files/*.é` is registered for GET as the only route. The
registration returns and `.é` first occurs in `img.é` at offset 3, and yet `match` on
`/files/img.é` reports no match and no handlers: the last character of the route is two
bytes long, so its node was never marked terminal. -/
theorem C16_multibyte_suffix_not_matched :
    (trie.insert (trie.newTrie : trie Nat) ("/files/".toList ++ any :: ".é".toList)
      "GET".toList [1]).2 = none ∧
    strIndex ("img".toList ++ ".é".toList) ".é".toList = some "img".toList.length ∧
    trie.match (trie.insert (trie.newTrie : trie Nat) ("/files/".toList ++ any :: ".é".toList)
      "GET".toList [1]).1 ("/files/".toList ++ "img".toList ++ ".é".toList) "GET".toList []
        = some (false, [], []) := by
  decide

/-- Supporting C16: let `P` be free of `:` and `*`, `suf` a non-empty string free of `:`,
`*` and `/` whose last character is one byte long, and `P*suf` the only route, with
handlers `H`. For every `x` without `/` that does not start with `*`,
`match(P x suf, method, p)` gives `(true, H)` when the first occurrence of `suf` in
`x suf` is at offset `|x|`, and `(false, nil)` when it is earlier; `p` is left as it
was. -/
theorem C16_wildcard_suffix {Handler : Type} (P suf x M method : Str) (H : List Handler)
    (hH : H ≠ []) (_hP1 : paramPrefix ∉ P) (_hP2 : any ∉ P)
    (hs : suf ≠ []) (hs0 : slash ∉ suf) (_hs1 : paramPrefix ∉ suf) (hs2 : any ∉ suf)
    (hes0 : endsSingle suf = true) (hx0 : slash ∉ x) (hx1 : x.head? ≠ some any)
    (p : List (Str × Str)) :
    (trie.insert (trie.newTrie : trie Handler) (P ++ any :: suf) M H).2 = none ∧
    (strIndex (x ++ suf) suf = some x.length →
      trie.match (trie.insert (trie.newTrie : trie Handler) (P ++ any :: suf) M H).1
        (P ++ x ++ suf) method p = some (true, H, p)) ∧
    (strIndex (x ++ suf) suf ≠ some x.length →
      trie.match (trie.insert (trie.newTrie : trie Handler) (P ++ any :: suf) M H).1
        (P ++ x ++ suf) method p = some (false, [], p)) := by
  refine ⟨insert_newTrie_ok _ _ _ hH, ?_⟩
  rw [List.append_assoc]
  have hw := sole_walk P any suf M H hH
  have hhead : ∀ c q, x ++ suf = c :: q → c ≠ any := by
    intro c q hq e
    subst e
    cases x with
    | nil =>
      simp only [List.nil_append] at hq
      exact hs2 (by rw [hq]; simp)
    | cons a b =>
      simp only [List.cons_append, List.cons.injEq] at hq
      apply hx1
      rw [hq.1]; rfl
  have hL := matchLoop_at _ _ P (x ++ suf) hw (sole_node_isEnd _ _ _ _ _ _)
    (fun c q hq => (sole_node_child _ _ _ _ _ _ c).1 (hhead c q hq))
  have hfuel := matchFuel_any 1 _ _ (P ++ (x ++ suf)) method (x ++ suf) p [] hL
    ((sole_node_child _ _ _ _ _ _ paramPrefix).1 (by decide))
    (sole_node_child _ _ _ _ _ _ any).2
  have hsl : slash ∉ x ++ suf := by
    intro h
    rcases List.mem_append.mp h with h | h
    · exact hx0 h
    · exact hs0 h
  have hes : endsSingle (any :: suf) = true := (endsSingle_cons_of_ne_nil any suf hs).trans hes0
  have hend : endAt (trie.insertLoop (P ++ any :: suf) M H (any :: suf) (len P)
      (trie.newTrie : trie Handler)).1 (any :: suf) = some H := by
    rw [sole_node_endAt, hes]; rfl
  constructor
  · intro hj
    apply match_of_matchFuel 2 _ (sole_height P any suf M H hH)
    rw [hfuel, anyRewrite_suffix _ _ suf _ (sole_node_suffix_one _ suf M H _ hs hs0) hsl hj,
      List.drop_left]
    exact matchFuel_of_endAt 0 _ (any :: suf) method p H hend hes
  · intro hne
    obtain ⟨j, hj⟩ := strIndex_isSome_of_occ suf [] x
    rw [List.append_nil] at hj
    obtain ⟨hjl, b, hb⟩ := strIndex_occ suf (x ++ suf) j hj
    obtain ⟨b0, b1, rfl⟩ : ∃ b0 b1, b = b0 :: b1 := by
      cases b with
      | cons b0 b1 => exact ⟨b0, b1, rfl⟩
      | nil =>
        exfalso
        apply hne
        rw [hj]
        have hlen := congrArg List.length hb
        simp only [List.length_drop, List.length_append, List.append_nil] at hlen hjl
        congr 1
        omega
    obtain ⟨E, hE⟩ := walk_of_endAt _ _ _ hend
    apply match_of_matchFuel 2 _ (sole_height P any suf M H hH)
    rw [hfuel, anyRewrite_suffix _ _ suf _ (sole_node_suffix_one _ suf M H _ hs hs0) hsl hj, hb]
    have hL2 := matchLoop_stop _ E (any :: suf) b1 b0 hE (sole_leaf P any suf M H hH E hE b0)
    simp only [List.cons_append] at hL2
    exact matchFuel_of_no_fallback 0 _ E _ method (b0 :: b1) p false [] hL2
      (sole_leaf P any suf M H hH E hE _) (sole_leaf P any suf M H hH E hE _)

/-- Supporting C16 at the route `/files/*.png` and the path `/files/img.png`. -/
theorem C16_wildcard_suffix_witness :
    trie.match (trie.insert (trie.newTrie : trie Nat) ("/files/".toList ++ any :: ".png".toList)
      "GET".toList [1]).1 ("/files/".toList ++ "img".toList ++ ".png".toList) "GET".toList []
        = some (true, [1], []) :=
  (C16_wildcard_suffix "/files/".toList ".png".toList "img".toList "GET".toList "GET".toList
    [1] (by decide) (by decide) (by decide) (by decide) (by decide) (by decide) (by decide)
    (by decide) (by decide) (by decide) []).2.1 (by decide)

/-! ## Registering a second route through a parameter branch -/

section Reregister

variable {Handler : Type}

theorem mapSet_mapSet {κ α : Type} [DecidableEq κ] (m : List (κ × α)) (k : κ) (a b : α) :
    mapSet (mapSet m k a) k b = mapSet m k b := by
  induction m with
  | nil => simp [mapSet]
  | cons e m ih =>
    obtain ⟨k1, v⟩ := e
    by_cases h : k1 = k
    · simp [mapSet, h]
    · simp [mapSet, h, ih]

theorem setChild_setChild (t : trie Handler) (w : Char) (a b : trie Handler) :
    (t.setChild w a).setChild w b = t.setChild w b := by
  cases t
  simp [trie.setChild, mapSet_mapSet]

theorem recordSuffix_of_ne (t : trie Handler) (w : Char) (r : Str) (h : w ≠ any) :
    trie.recordSuffix t w r = t := by
  simp [trie.recordSuffix, h]

theorem recordParam_of_ne (t : trie Handler) (w : Char) (m r : Str) (h : w ≠ paramPrefix) :
    trie.recordParam t w m r = t := by
  simp [trie.recordParam, h]

/-- Registering `P0/yb` in the trie of the sole route `P0/xa`, with `y` among `:` and
`*` and neither of them in `P0`, leaves the trie as it was. -/
theorem insertLoop_conflict_state (route1 method1 : Str) (hs1 : List Handler)
    (route2 method2 : Str) (hs2 : List Handler) (x y : Char) (a b : Str)
    (hy : y = paramPrefix ∨ y = any) :
    ∀ (P0 pre1 pre2 : Str), paramPrefix ∉ P0 → any ∉ P0 →
      route1 = pre1 ++ P0 ++ slash :: x :: a → route2 = pre2 ++ P0 ++ slash :: y :: b →
      (trie.insertLoop route2 method2 hs2 (P0 ++ slash :: y :: b) (len pre2)
          (trie.insertLoop route1 method1 hs1 (P0 ++ slash :: x :: a) (len pre1)
            (trie.newTrie : trie Handler)).1).1 =
        (trie.insertLoop route1 method1 hs1 (P0 ++ slash :: x :: a) (len pre1)
            (trie.newTrie : trie Handler)).1 := by
  intro P0
  induction P0 with
  | nil =>
    intro pre1 pre2 _ _ h1 h2
    simp only [List.nil_append, List.append_nil] at h1 h2 ⊢
    rw [insertLoop_newTrie_cons route1 method1 hs1 pre1 slash (x :: a) (by simp) h1]
    set S := (trie.insertLoop route1 method1 hs1 (x :: a) (len (pre1 ++ [slash]))
      (trie.newTrie : trie Handler)).1 with hS
    have hSend : S.isEnd = false := by rw [hS, isEnd_insertLoop]; rfl
    obtain ⟨msg, hmsg⟩ := checkConflictWildcard_slash_some
      ((trie.recordParam (trie.recordSuffix ((trie.newTrie : trie Handler).setChild slash
          trie.newTrie) slash (x :: a)) slash method1 (x :: a)).setChild slash S)
      S pre2 b y (by simp) hy
    rw [insertLoop_cons_error _ _ _ _ _ _ _ (Panic.wildcardConflict msg)]
    unfold trie.insertChild
    simp only [child_setChild, if_true, hSend, Bool.not_false]
    rw [h2, hmsg]
  | cons w P1 ih =>
    intro pre1 pre2 hp1 hp2 h1 h2
    have hw1 : w ≠ paramPrefix := fun h => hp1 (by simp [h])
    have hw2 : w ≠ any := fun h => hp2 (by simp [h])
    have hp1' : paramPrefix ∉ P1 := fun h => hp1 (List.mem_cons_of_mem _ h)
    have hp2' : any ∉ P1 := fun h => hp2 (List.mem_cons_of_mem _ h)
    have h1' : route1 = (pre1 ++ [w]) ++ P1 ++ slash :: x :: a := by simp [h1]
    have h2' : route2 = (pre2 ++ [w]) ++ P1 ++ slash :: y :: b := by simp [h2]
    have hIH := ih (pre1 ++ [w]) (pre2 ++ [w]) hp1' hp2' h1' h2'
    simp only [List.cons_append]
    rw [insertLoop_newTrie_cons route1 method1 hs1 pre1 w (P1 ++ slash :: x :: a) (by simp)
      (by rw [h1]; simp)]
    set S := (trie.insertLoop route1 method1 hs1 (P1 ++ slash :: x :: a) (len (pre1 ++ [w]))
      (trie.newTrie : trie Handler)).1 with hS
    have hSend : S.isEnd = false := by rw [hS, isEnd_insertLoop]; rfl
    have hSchild : ∀ c, (c = paramPrefix ∨ c = any) → S.child c = none := by
      intro c hc
      cases hcc : S.child c with
      | none => rfl
      | some v =>
        exfalso
        have h3 := child_insertLoop route1 method1 hs1 _ _ _ c (by rw [← hS, hcc]; rfl)
        simp only [child_newTrie, Option.isSome_none, Bool.false_eq_true, false_or] at h3
        rcases head?_append_slash P1 _ c h3 with h4 | h4
        · rcases hc with rfl | rfl
          · exact hp1' h4
          · exact hp2' h4
        · rcases hc with rfl | rfl
          · exact absurd h4 (by decide)
          · exact absurd h4 (by decide)
    have hchild : trie.insertChild
        ((trie.recordParam (trie.recordSuffix ((trie.newTrie : trie Handler).setChild w
          trie.newTrie) w (P1 ++ slash :: x :: a)) w method1 (P1 ++ slash :: x :: a)).setChild w S)
        route2 (len pre2) w = .ok S := by
      unfold trie.insertChild
      simp only [child_setChild, if_true, child_recordParam, child_recordSuffix, child_newTrie]
      by_cases hws : w = slash
      · subst hws
        simp only [if_true, hSend, Bool.not_false]
        rw [h2, List.append_assoc, List.cons_append,
          checkConflictWildcard_slash_none _ S pre2 (P1 ++ slash :: y :: b) (by simp)
            (hSchild _ (Or.inl rfl)) (hSchild _ (Or.inr rfl)) (by simp)]
        intro z hz
        rcases head?_append_slash P1 _ z hz with h4 | h4
        · exact ⟨fun h => hp1' (h ▸ h4), fun h => hp2' (h ▸ h4)⟩
        · subst h4; exact ⟨by decide, by decide⟩
      · simp [hws]
    rw [insertLoop_cons_ok _ _ _ _ _ _ _ _ hchild]
    have hnl : ¬ ((len pre2 : Int) = (len route2 : Int) - 1) := by
      intro h
      have := (index_eq_last route2 (len pre2) w (P1 ++ slash :: y :: b)
        (by rw [h2, List.append_assoc, len_append]; rfl)).mp h
      simp at this
    simp only [hnl, if_false]
    rw [← len_singleton, ← len_append, hIH]
    simp only [recordSuffix_of_ne _ w _ hw2, recordParam_of_ne _ w _ _ hw1, setChild_setChild]

theorem paramName_setParam (t : trie Handler) (M v : Str) :
    (t.setParam M v).paramName M = v := by
  simp [trie.paramName, mapGet_mapSet]

/-- After a returning run of the loop of `insert` along `pre ++ ':' :: tail`, the name
recorded for the method at the node of `pre` is the text of `tail` up to its first `/`. -/
theorem paramName_insertLoop (route M : Str) (hs : List Handler) (tail name : Str)
    (hseg : (match strIndex tail [slash] with
      | some k => tail.take k
      | none => tail) = name) :
    ∀ (pre : Str) (i : Nat) (t T : trie Handler),
      trie.insertLoop route M hs (pre ++ paramPrefix :: tail) i t = (T, none) →
      ∃ N, walk T pre = some N ∧ N.paramName M = name := by
  intro pre
  induction pre with
  | nil =>
    intro i t T h
    simp only [List.nil_append] at h
    cases hc : t.insertChild route i paramPrefix with
    | error p =>
      rw [insertLoop_cons_error _ _ _ _ _ _ _ _ hc] at h
      cases h
    | ok c =>
      rw [insertLoop_cons_ok _ _ _ _ _ _ _ _ hc] at h
      obtain ⟨hT, _⟩ := Prod.mk.inj h
      refine ⟨T, rfl, ?_⟩
      rw [← hT, paramName_setChild]
      unfold trie.recordParam
      simp only [if_true]
      cases hk : strIndex tail [slash] with
      | none =>
        rw [hk] at hseg
        simp only at hseg ⊢
        rw [paramName_setParam, hseg]
      | some k =>
        rw [hk] at hseg
        simp only at hseg ⊢
        rw [paramName_setParam, hseg]
  | cons w pre ih =>
    intro i t T h
    simp only [List.cons_append] at h
    cases hc : t.insertChild route i w with
    | error p =>
      rw [insertLoop_cons_error _ _ _ _ _ _ _ _ hc] at h
      cases h
    | ok c =>
      rw [insertLoop_cons_ok _ _ _ _ _ _ _ _ hc] at h
      obtain ⟨hT, hR⟩ := Prod.mk.inj h
      obtain ⟨N, hN1, hN2⟩ := ih _ _ _ (Prod.ext rfl hR)
      refine ⟨N, ?_, hN2⟩
      rw [← hT, walk_cons]
      simpa using hN1

theorem segment_name (n1 Q : Str) (hn : slash ∉ n1) (hQ : Q = [] ∨ Q.head? = some slash) :
    (match strIndex (n1 ++ Q) [slash] with
      | some k => (n1 ++ Q).take k
      | none => n1 ++ Q) = n1 := by
  rcases hQ with rfl | hQ
  · simp [strIndex_slash_none n1 hn]
  · cases Q with
    | nil => simp at hQ
    | cons c r =>
      simp only [List.head?_cons, Option.some.injEq] at hQ
      subst hQ
      simp [strIndex_append_slash n1 r hn]

end Reregister

/-- C14 (failing input): from the empty trie `/users/:id` is registered for GET and then
`/users/:id/posts`, or `/users/:id` again, for GET. The first registration returns; the
second panics with the wildcard-conflict error in both cases. With the `:` one character
further from the `/`, the registrations of `/a:x` and then `/a:y/z` both return, and the
name recorded for GET at the node of `/a` is `y` afterwards. -/
theorem C14_reregistration_fails :
    (trie.insert (trie.newTrie : trie Nat) "/users/:id".toList "GET".toList [1]).2 = none ∧
    (trie.insert (trie.insert (trie.newTrie : trie Nat) "/users/:id".toList "GET".toList [1]).1
        "/users/:id/posts".toList "GET".toList [2]).2
      = some (Panic.wildcardConflict (bytes
          "wildcard ':id' in route ('/users/:id/posts') conflicts with existing prefix in trie".toList)) ∧
    (trie.insert (trie.insert (trie.newTrie : trie Nat) "/users/:id".toList "GET".toList [1]).1
        "/users/:id".toList "GET".toList [2]).2
      = some (Panic.wildcardConflict (bytes
          "wildcard ':id' in route ('/users/:id') conflicts with existing prefix in trie".toList)) ∧
    (trie.insert (trie.newTrie : trie Nat) "/a:x".toList "GET".toList [1]).2 = none ∧
    (trie.insert (trie.insert (trie.newTrie : trie Nat) "/a:x".toList "GET".toList [1]).1
        "/a:y/z".toList "GET".toList [2]).2 = none ∧
    (∃ N, walk (trie.insert (trie.insert (trie.newTrie : trie Nat) "/a:x".toList "GET".toList [1]).1
        "/a:y/z".toList "GET".toList [2]).1 "/a".toList = some N ∧
      N.paramName "GET".toList = "y".toList) := by
  refine ⟨?_, ?_, ?_, ?_, ?_, ?_⟩
  · rfl
  · rfl
  · rfl
  · rfl
  · rfl
  · exact ⟨_, rfl, rfl⟩

/-- Supporting C14: for a prefix `P` without `:` and `*` that ends in `/`, names `n` and
`n1` without `/` and a tail `Q` that is empty or starts with `/`: from the empty trie
`insert(P:n, M, H1)` returns and a following `insert(P:n1 Q, M, H2)` panics with the
wildcard-conflict error and leaves the trie as it was, so that the name recorded for `M`
at the node of `P` is still `n`. On any trie on which `insert(P:n1 Q, M, H2)` returns, the
name recorded for `M` at the node of `P` is `n1` afterwards; such a trie is the one
holding `/users/` and `/users/:id`, for `P = /users/`. -/
theorem C14_reregistration_conflict {Handler : Type} (P n n1 Q M : Str) (H1 H2 : List Handler)
    (hP1 : paramPrefix ∉ P) (hP2 : any ∉ P) (hend : P.getLast? = some slash)
    (_hn : n ≠ []) (hn0 : slash ∉ n) (_hn1 : n1 ≠ []) (hn10 : slash ∉ n1)
    (hQ : Q = [] ∨ Q.head? = some slash) (h1 : H1 ≠ []) (h2 : H2 ≠ []) :
    (trie.insert (trie.newTrie : trie Handler) (P ++ paramPrefix :: n) M H1).2 = none ∧
    (∃ msg, trie.insert (trie.insert (trie.newTrie : trie Handler) (P ++ paramPrefix :: n) M H1).1
        (P ++ paramPrefix :: n1 ++ Q) M H2 =
      ((trie.insert (trie.newTrie : trie Handler) (P ++ paramPrefix :: n) M H1).1,
        some (Panic.wildcardConflict msg))) ∧
    (∃ N, walk (trie.insert (trie.newTrie : trie Handler) (P ++ paramPrefix :: n) M H1).1 P
        = some N ∧ N.paramName M = n) ∧
    (∀ t T : trie Handler, trie.insert t (P ++ paramPrefix :: n1 ++ Q) M H2 = (T, none) →
      ∃ N, walk T P = some N ∧ N.paramName M = n1) ∧
    (∃ t : trie Handler, insertAll (trie.newTrie : trie Handler)
        [⟨"/users/".toList, M, H1⟩, ⟨"/users/:id".toList, M, H1⟩] = some t ∧
      (trie.insert t ("/users/".toList ++ paramPrefix :: "uid".toList ++ "/posts".toList)
        M H2).2 = none) := by
  refine ⟨insert_newTrie_ok _ _ _ h1, ?_, ?_, ?_, ?_⟩
  · obtain ⟨P0, rfl⟩ : ∃ P0, P = P0 ++ [slash] := by
      rcases List.eq_nil_or_concat P with rfl | ⟨P0, c, rfl⟩
      · simp at hend
      · simp at hend
        exact ⟨P0, by rw [hend, List.concat_eq_append]⟩
    have hp1 : paramPrefix ∉ P0 := fun h => hP1 (List.mem_append_left _ h)
    have hp2 : any ∉ P0 := fun h => hP2 (List.mem_append_left _ h)
    rw [insert_of_ne_nil _ _ _ _ h1, insert_of_ne_nil _ _ _ _ h2]
    obtain ⟨msg, hmsg⟩ := insertLoop_conflict (P0 ++ [slash] ++ paramPrefix :: n) M H1
      (P0 ++ [slash] ++ paramPrefix :: n1 ++ Q) M H2 paramPrefix paramPrefix n (n1 ++ Q)
      (Or.inl rfl) P0 [] [] hp1 hp2 (by simp) (by simp)
    have hst := insertLoop_conflict_state (P0 ++ [slash] ++ paramPrefix :: n) M H1
      (P0 ++ [slash] ++ paramPrefix :: n1 ++ Q) M H2 paramPrefix paramPrefix n (n1 ++ Q)
      (Or.inl rfl) P0 [] [] hp1 hp2 (by simp) (by simp)
    refine ⟨msg, Prod.ext ?_ ?_⟩
    · simpa using hst
    · simpa using hmsg
  · refine ⟨_, sole_walk P paramPrefix n M H1 h1, ?_⟩
    rw [sole_node_paramName _ n M M H1 _ hn0]
    simp
  · intro t T h
    rw [insert_of_ne_nil _ _ _ _ h2] at h
    have h3 : P ++ paramPrefix :: n1 ++ Q = P ++ paramPrefix :: (n1 ++ Q) := by simp
    rw [h3] at h
    exact paramName_insertLoop _ M H2 (n1 ++ Q) n1 (segment_name n1 Q hn10 hQ) P 0 t T h
  · simp only [insertAll, insert_of_ne_nil _ _ _ _ h1, insert_of_ne_nil _ _ _ _ h2]
    exact ⟨_, rfl, rfl⟩

/-- Supporting C14 at `/users/:id` followed by `/users/:id/posts`. -/
theorem C14_reregistration_conflict_witness :
    (∃ msg, trie.insert (trie.insert (trie.newTrie : trie Nat)
        ("/users/".toList ++ paramPrefix :: "id".toList) "GET".toList [1]).1
        ("/users/".toList ++ paramPrefix :: "id".toList ++ "/posts".toList) "GET".toList [2] =
      ((trie.insert (trie.newTrie : trie Nat)
        ("/users/".toList ++ paramPrefix :: "id".toList) "GET".toList [1]).1,
        some (Panic.wildcardConflict msg))) :=
  (C14_reregistration_conflict "/users/".toList "id".toList "id".toList "/posts".toList
    "GET".toList [1] [2] (by decide) (by decide) (by decide) (by decide) (by decide)
    (by decide) (by decide) (by decide) (by decide) (by decide)).2.1

end Gogo
